import Mathlib

/-!
Verification of the Climate-Dashboard data pipeline
(`scripts/update-climate-data.mjs`) and its artifact verifier script.

The JavaScript source is shallowly embedded:
* JS numbers that the pipeline manipulates are modelled as `ℚ`; a value that
  is `NaN`/`±Infinity` after `Number(...)` coercion is modelled as `none` in
  an `Option ℚ` (every numeric check in the source guards with
  `Number.isFinite` before using a value, and no claim here depends on
  floating-point rounding).
* Millisecond UTC timestamps are `Int`; `Date.parse`/`Date.UTC` on the strict
  `YYYY-MM-DD` shapes the pipeline produces and consumes are modelled by an
  explicit proleptic-Gregorian day-number computation.
* Strings are Lean `String`s and all string manipulation (`trim`, `split`,
  `startsWith`, `replace`) is defined explicitly on the character list.
* `fetch`/file-system effects are passed in as explicit oracles/outcome lists.
-/

namespace Climate

/- Rational arithmetic must evaluate inside `decide` proofs; Batteries
marks these definitions irreducible for performance only. -/
attribute [local semireducible] Rat.add Rat.mul Rat.sub Rat.inv Rat.ofScientific

/-! ## JS string primitives -/

/-- Model of the JS whitespace class used by `String.prototype.trim`
(restricted to the ASCII whitespace appearing in the data feeds). -/
def isJsWhitespace (c : Char) : Bool :=
  c = ' ' || c = '\t' || c = '\n' || c = '\r' || c = '\x0b' || c = '\x0c'

/-- Model of `String.prototype.trim` on the character list. -/
def trimChars (l : List Char) : List Char :=
  ((l.dropWhile isJsWhitespace).reverse.dropWhile isJsWhitespace).reverse

/-- Model of `String.prototype.trim`. -/
def jsTrim (s : String) : String :=
  ⟨trimChars s.data⟩

/-- Split a character list on a single separator character; models
`String.prototype.split(",")` (an empty string yields one empty piece). -/
def splitOnChar (sep : Char) : List Char → List (List Char)
  | [] => [[]]
  | c :: rest =>
    match splitOnChar sep rest with
    | [] => [[]]
    | piece :: pieces =>
      if c = sep then [] :: piece :: pieces else (c :: piece) :: pieces

/-- Model of `s.split(",")` (or any single-character separator). -/
def jsSplit (sep : Char) (s : String) : List String :=
  (splitOnChar sep s.data).map (fun l => ⟨l⟩)

/-- Strip one trailing carriage return from a character list. -/
def dropTrailingCR (l : List Char) : List Char :=
  match l.reverse with
  | '\r' :: rest => rest.reverse
  | _ => l

/-- Model of `s.split(/\r?\n/)`: split on `'\n'`, then remove the carriage
return that preceded each newline. -/
def jsSplitLines (s : String) : List String :=
  (splitOnChar '\n' s.data).map (fun l => ⟨dropTrailingCR l⟩)

/-- Model of `s.replace(/"/g, "")`. -/
def jsStripQuotes (s : String) : String :=
  ⟨s.data.filter (fun c => c ≠ '"')⟩

/-- Model of `s.startsWith(p)` for a single-character p. -/
def jsStartsWithChar (c : Char) (s : String) : Bool :=
  match s.data with
  | [] => false
  | d :: _ => d = c

/-- Digit test for the `\d` regex class. -/
def isDigitChar (c : Char) : Bool :=
  '0' ≤ c && c ≤ '9'

/-- Numeric value of a decimal digit character. -/
def digitVal (c : Char) : Nat :=
  c.toNat - '0'.toNat

/-- Value of a list of decimal digit characters. -/
def digitsVal (l : List Char) : Nat :=
  l.foldl (fun acc c => acc * 10 + digitVal c) 0

/-! ## JS number-from-string coercion

`toFiniteNumber` in the source applies `Number(value)` and keeps the result
only when finite.  The model below covers the `Number` string grammar
actually exercised by the data feeds: optional sign, decimal digits with an
optional fraction and exponent, and the whitespace-only string (which JS
coerces to `0`).  Other strings (hex literals, `Infinity`, garbage) coerce
to `none`, standing for a non-finite result. -/

/-- Parse an unsigned decimal mantissa `digits [. digits]`, also accepting
`.digits` and `digits.`; returns the value as a rational. -/
def parseMantissa (l : List Char) : Option ℚ :=
  let intPart := l.takeWhile isDigitChar
  let rest := l.dropWhile isDigitChar
  match rest with
  | [] => if intPart = [] then none else some (digitsVal intPart)
  | '.' :: fracRest =>
    let fracPart := fracRest.takeWhile isDigitChar
    if fracRest.dropWhile isDigitChar ≠ [] then none
    else if intPart = [] && fracPart = [] then none
    else some ((digitsVal intPart : ℚ) +
      (digitsVal fracPart : ℚ) / ((10 : ℚ) ^ fracPart.length))
  | _ => none

/-- Parse a signed decimal with optional exponent. -/
def parseSignedNumber (l : List Char) : Option ℚ :=
  let (sign, body) : ℚ × List Char :=
    match l with
    | '-' :: rest => (-1, rest)
    | '+' :: rest => (1, rest)
    | _ => (1, l)
  let (mantissaChars, expChars) : List Char × Option (List Char) :=
    match body.span (fun c => c ≠ 'e' && c ≠ 'E') with
    | (m, []) => (m, none)
    | (m, _ :: e) => (m, some e)
  match parseMantissa mantissaChars with
  | none => none
  | some q =>
    match expChars with
    | none => some (sign * q)
    | some e =>
      let (esign, edigits) : Int × List Char :=
        match e with
        | '-' :: rest => (-1, rest)
        | '+' :: rest => (1, rest)
        | _ => (1, e)
      if edigits = [] || edigits.any (fun c => !isDigitChar c) then none
      else some (sign * q * (10 : ℚ) ^ (esign * (digitsVal edigits : Int)))

/-- Model of `Number(s)` for a string `s`, keeping only finite results:
this is `toFiniteNumber` from the source applied to a string. -/
def jsStrToNum (s : String) : Option ℚ :=
  let t := trimChars s.data
  if t = [] then some 0 else parseSignedNumber t

/-! ## Calendar arithmetic

`Date.parse("YYYY-MM-DDT00:00:00Z")`, `Date.UTC` and the `getUTC*` family
are modelled with an explicit proleptic-Gregorian day count relative to
1970-01-01. -/

/-- The `DAY_MS` constant from the source. -/
def DAY_MS : Int := 86400000

/-- Gregorian leap-year test. -/
def isLeapYear (y : Nat) : Bool :=
  (y % 4 = 0 && y % 100 ≠ 0) || y % 400 = 0

/-- Days in a month (1-based) of a given year. -/
def daysInMonth (y : Nat) (m : Nat) : Nat :=
  match m with
  | 1 => 31 | 2 => if isLeapYear y then 29 else 28 | 3 => 31
  | 4 => 30 | 5 => 31 | 6 => 30 | 7 => 31 | 8 => 31
  | 9 => 30 | 10 => 31 | 11 => 30 | 12 => 31
  | _ => 0

/-- Number of leap years strictly before year `y` (counting from year 0). -/
def leapsBefore (y : Nat) : Int :=
  ((y + 3) / 4 : Nat) - ((y + 99) / 100 : Nat) + ((y + 399) / 400 : Nat)

/-- Days in the months strictly before month `m` of a year with leap flag
`leap`. -/
def monthOffset (leap : Bool) (m : Nat) : Int :=
  match m with
  | 1 => 0 | 2 => 31 | 3 => if leap then 60 else 59
  | 4 => if leap then 91 else 90 | 5 => if leap then 121 else 120
  | 6 => if leap then 152 else 151 | 7 => if leap then 182 else 181
  | 8 => if leap then 213 else 212 | 9 => if leap then 244 else 243
  | 10 => if leap then 274 else 273 | 11 => if leap then 305 else 304
  | 12 => if leap then 335 else 334
  | _ => 0

/-- Number of days from 1970-01-01 to year `y`, month `m`, day `d`
(proleptic Gregorian). -/
def epochDays (y m d : Nat) : Int :=
  365 * (y : Int) + leapsBefore y + monthOffset (isLeapYear y) m + (d : Int) - 1 - 719528

/-- Inverse of `epochDays`: civil date from a day count
(Howard Hinnant's `civil_from_days` algorithm). -/
def civilFromDays (z : Int) : Int × Nat × Nat :=
  let z := z + 719468
  let era : Int := (if 0 ≤ z then z else z - 146096) / 146097
  let doe : Nat := (z - era * 146097).toNat
  let yoe : Nat := (doe - doe / 1460 + doe / 36524 - doe / 146096) / 365
  let doy : Nat := doe - (365 * yoe + yoe / 4 - yoe / 100)
  let mp : Nat := (5 * doy + 2) / 153
  let d : Nat := doy - (153 * mp + 2) / 5 + 1
  let m : Nat := if mp < 10 then mp + 3 else mp - 9
  let y : Int := (yoe : Int) + era * 400 + (if m ≤ 2 then 1 else 0)
  (y, m, d)

/-- Regex test `^\d{4}-\d{2}-\d{2}$` on a character list. -/
def isIsoShapeChars : List Char → Bool
  | [a, b, c, d, h1, e, f, h2, g, h] =>
    isDigitChar a && isDigitChar b && isDigitChar c && isDigitChar d &&
    h1 = '-' && isDigitChar e && isDigitChar f && h2 = '-' &&
    isDigitChar g && isDigitChar h
  | _ => false

/-- Regex test `^\d{4}-\d{2}-\d{2}$`. -/
def isIsoShape (s : String) : Bool :=
  isIsoShapeChars s.data

/-- The year/month/day fields of a string of ISO shape. -/
def isoFields : List Char → Option (Nat × Nat × Nat)
  | l@(a :: b :: c :: d :: _ :: e :: f :: _ :: g :: h :: []) =>
    if isIsoShapeChars l then
      some (digitsVal [a, b, c, d], digitsVal [e, f], digitsVal [g, h])
    else none
  | _ => none

/-- A valid civil date for the parser: month in range and day within the
month. -/
def ValidDate (y m d : Nat) : Prop :=
  1 ≤ m ∧ m ≤ 12 ∧ 1 ≤ d ∧ d ≤ daysInMonth y m

instance (y m d : Nat) : Decidable (ValidDate y m d) := by
  unfold ValidDate; infer_instance

/-- Model of `parseIsoDateToUtc` from the source:
`Date.parse(dateIso + "T00:00:00Z")`, which succeeds exactly on
`YYYY-MM-DD` strings denoting a real calendar date, yielding the UTC
midnight timestamp in milliseconds.  (The engine's lenient fallback parser
for non-ISO shapes is outside the formats this pipeline produces and is
modelled as a parse failure.) -/
def parseIsoDateToUtc (s : String) : Option Int :=
  match isoFields s.data with
  | none => none
  | some (y, m, d) =>
    if ValidDate y m d then some (epochDays y m d * DAY_MS) else none

/-- Left-pad a numeral with zeros to two digits:
`String(n).padStart(2, "0")`. -/
def pad2 (n : Nat) : String :=
  if n < 10 then "0" ++ toString n else toString n

/-- Model of `formatIsoDate`: format a civil date as
`${year}-${month2}-${day2}` (the year is not padded, as in the source). -/
def formatIsoDate (y : Int) (m d : Nat) : String :=
  toString y ++ "-" ++ pad2 m ++ "-" ++ pad2 d

/-- Model of `formatDateFromParts`: validate the parts, build
`Date.UTC(year, month-1, day)` and require the round trip through the
`getUTC*` accessors to return the same parts.  The net effect for integer
inputs: the parts must be an actual calendar date (no day overflow) and the
year must not fall in `0..99` (which `Date.UTC` remaps to `1900+year`,
always failing the round-trip check). -/
def formatDateFromParts (year month day : Int) : Option String :=
  if month < 1 ∨ 12 < month ∨ day < 1 ∨ 31 < day then none
  else
    if 0 ≤ year ∧ year ≤ 99 then none
    else
      match year with
      | .ofNat y =>
        if day ≤ daysInMonth y month.toNat then
          some (formatIsoDate year month.toNat day.toNat)
        else none
      | .negSucc _ => none

/-- Model of `dateFromYearAndDay`: Jan 1 of `year` advanced by
`dayOfYear - 1` days (via `setUTCDate`), requiring the result to stay in
`year`. -/
def dateFromYearAndDay (year : Int) (dayOfYear : Int) : Option String :=
  if dayOfYear < 1 ∨ 366 < dayOfYear then none
  else
    match year with
    | .ofNat y =>
      if y < 100 then none
      else
        let days := epochDays y 1 1 + (dayOfYear - 1)
        let (y', m', d') := civilFromDays days
        if y' = year then some (formatIsoDate y' m' d') else none
    | .negSucc _ => none

/-- Model of `addUtcDays`: parse, shift by whole days via `setUTCDate`, and
re-format. -/
def addUtcDays (dateIso : String) (deltaDays : Int) : Option String :=
  match parseIsoDateToUtc dateIso with
  | none => none
  | some ts =>
    let (y, m, d) := civilFromDays (ts / DAY_MS + deltaDays)
    some (formatIsoDate y m d)

/-- Model of `yearDayFromIso`: UTC year and 1-based day-of-year of a parsed
ISO date. -/
def yearDayFromIso (dateIso : String) : Option (Int × Nat) :=
  match parseIsoDateToUtc dateIso with
  | none => none
  | some ts =>
    let days := ts / DAY_MS
    let (y, _, _) := civilFromDays days
    match y with
    | .ofNat yn =>
      let dayOfYear := days - epochDays yn 1 1 + 1
      if 1 ≤ dayOfYear ∧ dayOfYear ≤ 366 then some (y, dayOfYear.toNat) else none
    | .negSucc _ => none

/-! ## Points, the stable sort, and the Point Normalizer -/

/-- An input point as seen by `normalizePoints`: the `date` field after the
`String(point.date ?? "")` coercion, and the `value` field after
`Number(point.value)` coercion (`none` = non-finite). -/
structure RawPoint where
  date : String
  value : Option ℚ
  deriving DecidableEq, Repr

/-- A normalized point: a date string plus a finite value. -/
structure Point where
  date : String
  value : ℚ
  deriving DecidableEq, Repr

/-- View a normalized point as an input point. -/
def Point.toRaw (p : Point) : RawPoint :=
  ⟨p.date, some p.value⟩

/-- Model of `Map.prototype.set` on an insertion-ordered association list:
an existing key keeps its position and gets the new value, a new key is
appended. -/
def mapSet (m : List (String × ℚ)) (k : String) (v : ℚ) : List (String × ℚ) :=
  if m.any (fun e => e.1 = k) then
    m.map (fun e => if e.1 = k then (k, v) else e)
  else m ++ [(k, v)]

/-- One step of the first loop of `normalizePoints`: keep an entry whose
trimmed date matches `^\d{4}-\d{2}-\d{2}$` and whose value is finite. -/
def normStep (m : List (String × ℚ)) (p : RawPoint) : List (String × ℚ) :=
  match p.value with
  | none => m
  | some v =>
    let date := jsTrim p.date
    if isIsoShape date then mapSet m date v else m

/-- The date/value map built by the first loop of `normalizePoints`,
later entries overwriting earlier ones. -/
def buildPointMap (points : List RawPoint) : List (String × ℚ) :=
  points.foldl normStep []

/-- Stable insertion of `a` into `l` for a boolean comparator-derived
relation `le` (`le a b` = "the comparator puts `a` not after `b`"). -/
def stableInsert (le : α → α → Bool) (a : α) : List α → List α
  | [] => [a]
  | b :: l => if le a b then a :: b :: l else b :: stableInsert le a l

/-- Model of `Array.prototype.sort` with a comparator: a stable
comparator-based sort (insertion-based; for a consistent comparator this
agrees with every ES-compliant stable sort). -/
def jsStableSort (le : α → α → Bool) : List α → List α
  | [] => []
  | b :: l => stableInsert le b (jsStableSort le l)

/-- The sort relation used by `normalizePoints`:
`Date.parse(a) - Date.parse(b) <= 0`, where a comparator result of `NaN`
is treated as `0` by `SortCompare` (so either side failing to parse
compares as "equal"). -/
def dateLe (a b : String × ℚ) : Bool :=
  match parseIsoDateToUtc a.1, parseIsoDateToUtc b.1 with
  | some x, some y => x ≤ y
  | _, _ => true

/-- Model of `normalizePoints` from the source. -/
def normalizePoints (points : List RawPoint) : List Point :=
  (jsStableSort dateLe (buildPointMap points)).map (fun e => ⟨e.1, e.2⟩)

/-! ## The sanitizer -/

/-- A per-series sanitization policy (`minValue`/`maxValue`/`maxAgeDays`). -/
structure Limits where
  minValue : ℚ
  maxValue : ℚ
  maxAgeDays : Int
  deriving DecidableEq, Repr

/-- The `FUTURE_TOLERANCE_DAYS` constant from the source. -/
def FUTURE_TOLERANCE_DAYS : Int := 0

/-- The filter inside `sanitizeSeries`: finite in-range value, parseable
date, not in the future. -/
def sanitizeFilter (limits : Limits) (nowMidnight : Int) (points : List RawPoint) :
    List RawPoint :=
  let futureLimit := nowMidnight + FUTURE_TOLERANCE_DAYS * DAY_MS
  points.filter (fun p =>
    match p.value with
    | none => false
    | some v =>
      if v < limits.minValue ∨ limits.maxValue < v then false
      else
        match parseIsoDateToUtc p.date with
        | none => false
        | some t => t ≤ futureLimit)

/-- Model of `sanitizeSeries` from the source; the wall-clock UTC midnight
read from `new Date()` is passed in explicitly as `nowMidnight`. -/
def sanitizeSeries (points : List RawPoint) (limits : Limits) (nowMidnight : Int) :
    List Point :=
  let staleLimit := nowMidnight - limits.maxAgeDays * DAY_MS
  let normalized := normalizePoints (sanitizeFilter limits nowMidnight points)
  match normalized.getLast? with
  | none => []
  | some latest =>
    match parseIsoDateToUtc latest.date with
    | none => []
    | some latestTime => if latestTime < staleLimit then [] else normalized

/-! ## The sea-ice merge -/

/-- `new Set(list)`: deduplicate, keeping first occurrences in order. -/
def dedupKeepFirst : List String → List String
  | [] => []
  | x :: rest =>
    let r := dedupKeepFirst rest
    x :: r.filter (fun y => y ≠ x)

/-- Association-list lookup, modelling `Map.prototype.get` (`none` for a
missing key, i.e. JS `undefined`). -/
def mapGet (m : List (String × ℚ)) (k : String) : Option ℚ :=
  match m.find? (fun e => e.1 = k) with
  | none => none
  | some e => some e.2

/-- `new Map(points.map(p => [p.date, p.value]))`: later duplicate dates
overwrite earlier ones. -/
def pointMapOf (points : List Point) : List (String × ℚ) :=
  points.foldl (fun m p => mapSet m p.date p.value) []

/-- Model of `mergeSeaIceSeries` from the source: keep the dates present in
both series, value = north + south, then normalize. -/
def mergeSeaIceSeries (north south : List Point) : List Point :=
  let northMap := pointMapOf north
  let southMap := pointMapOf south
  let dates := dedupKeepFirst (northMap.map (fun e => e.1) ++ southMap.map (fun e => e.1))
  let merged := dates.filterMap (fun date =>
    match mapGet northMap date, mapGet southMap date with
    | some nv, some sv => some (⟨date, nv + sv⟩ : Point)
    | _, _ => none)
  normalizePoints (merged.map Point.toRaw)

/-! ## The NOAA CO2 daily CSV format parser -/

/-- Model of `toFiniteNumber` applied to a CSV column string. -/
def toFiniteNumber (s : String) : Option ℚ :=
  jsStrToNum s

/-- One row of `parseNoaaCo2DailyCsv`: non-empty non-comment line, at least
five comma-separated columns, a valid date from columns 0-2, and the first
of columns 4-6 whose value lies in the open interval (0, 1000). -/
def noaaCo2Row (rawLine : String) : Option Point :=
  let line := jsTrim rawLine
  if line = "" || jsStartsWithChar '#' line then none
  else
    let columns := (jsSplit ',' line).map jsTrim
    if columns.length < 5 then none
    else
      let year := jsStrToNum (columns.getD 0 "")
      let month := jsStrToNum (columns.getD 1 "")
      let day := jsStrToNum (columns.getD 2 "")
      match year, month, day with
      | some y, some mo, some d =>
        if y.den = 1 ∧ mo.den = 1 ∧ d.den = 1 then
          match formatDateFromParts y.num mo.num d.num with
          | none => none
          | some date =>
            let candidates := [columns.get? 4, columns.get? 5, columns.get? 6].map
              (fun col => match col with
                | some s => toFiniteNumber s
                | none => none)
            match candidates.filterMap (fun c =>
                match c with
                | some v => if 0 < v ∧ v < 1000 then some v else none
                | none => none) with
            | [] => none
            | v :: _ => some ⟨date, v⟩
        else none
      | _, _, _ => none

/-- Model of `parseNoaaCo2DailyCsv` from the source. -/
def parseNoaaCo2DailyCsv (rawCsv : String) : List Point :=
  normalizePoints (((jsSplitLines rawCsv).filterMap noaaCo2Row).map Point.toRaw)

/-- Model of `summarize` from the source. -/
structure Summary where
  points : Nat
  latestDate : Option String
  latestValue : Option ℚ
  deriving DecidableEq, Repr

/-- `summarize(series)`: point count and the final point's date/value. -/
def summarize (series : List Point) : Summary :=
  match series.getLast? with
  | none => ⟨series.length, none, none⟩
  | some latest => ⟨series.length, some latest.date, some latest.value⟩

/-! ## General facts about the stable sort -/

section SortLemmas

variable {α : Type} (le : α → α → Bool)

theorem stableInsert_perm (a : α) (l : List α) :
    (stableInsert le a l).Perm (a :: l) := by
  induction l with
  | nil => exact List.Perm.refl _
  | cons b t ih =>
    simp only [stableInsert]
    by_cases h : le a b = true
    · rw [if_pos h]
    · rw [if_neg h]
      exact (ih.cons b).trans (List.Perm.swap a b t)

theorem jsStableSort_perm (l : List α) : (jsStableSort le l).Perm l := by
  induction l with
  | nil => exact List.Perm.refl _
  | cons b t ih =>
    exact (stableInsert_perm le b (jsStableSort le t)).trans (ih.cons b)

/-- If the relation is total, inserting preserves the adjacent chain. -/
theorem chain_stableInsert (htot : ∀ a b, le a b = false → le b a = true)
    (a : α) {l : List α} (hl : l.Chain' (fun x y => le x y = true)) :
    (stableInsert le a l).Chain' (fun x y => le x y = true) := by
  induction l with
  | nil => exact List.chain'_singleton a
  | cons b t ih =>
    simp only [stableInsert]
    by_cases h : le a b = true
    · rw [if_pos h]
      exact List.chain'_cons.mpr ⟨h, hl⟩
    · rw [if_neg h]
      have hf : le a b = false := by
        cases hab : le a b
        · rfl
        · exact absurd hab h
      have hba : le b a = true := htot a b hf
      cases t with
      | nil =>
        simp only [stableInsert]
        exact List.chain'_cons.mpr ⟨hba, List.chain'_singleton a⟩
      | cons c u =>
        have hl' := List.chain'_cons.mp hl
        have hrec := ih hl'.2
        simp only [stableInsert] at hrec ⊢
        by_cases hac : le a c = true
        · rw [if_pos hac] at hrec ⊢
          exact List.chain'_cons.mpr ⟨hba, hrec⟩
        · rw [if_neg hac] at hrec ⊢
          exact List.chain'_cons.mpr ⟨hl'.1, hrec⟩

/-- For a total relation, the stable sort always produces an adjacent
chain. -/
theorem chain_jsStableSort (htot : ∀ a b, le a b = false → le b a = true)
    (l : List α) :
    (jsStableSort le l).Chain' (fun x y => le x y = true) := by
  induction l with
  | nil => exact List.chain'_nil
  | cons b t ih => exact chain_stableInsert le htot b ih

/-- A list that already forms an adjacent chain is a fixpoint of the
sort. -/
theorem jsStableSort_eq_self_of_chain {l : List α}
    (hl : l.Chain' (fun x y => le x y = true)) :
    jsStableSort le l = l := by
  induction l with
  | nil => rfl
  | cons b t ih =>
    have htail := ih hl.tail
    simp only [jsStableSort]
    rw [htail]
    cases t with
    | nil => rfl
    | cons c u =>
      have hl' := List.chain'_cons.mp hl
      simp only [stableInsert]
      rw [if_pos hl'.1]

/-- For a total relation the stable sort is idempotent. -/
theorem jsStableSort_idem (htot : ∀ a b, le a b = false → le b a = true)
    (l : List α) :
    jsStableSort le (jsStableSort le l) = jsStableSort le l :=
  jsStableSort_eq_self_of_chain le (chain_jsStableSort le htot l)

end SortLemmas

/-- The sort relation of `normalizePoints` is total: a comparator value of
`NaN` is treated as zero, so either order is accepted. -/
theorem dateLe_total : ∀ a b, dateLe a b = false → dateLe b a = true := by
  intro a b h
  unfold dateLe at *
  cases ha : parseIsoDateToUtc a.1 with
  | none => simp [ha] at h
  | some x =>
    cases hb : parseIsoDateToUtc b.1 with
    | none => simp [ha, hb] at h
    | some y =>
      simp only [ha, hb, decide_eq_false_iff_not, not_le] at h
      simpa [ha, hb] using le_of_lt h


/-! ## Injectivity of the epoch-day computation on valid civil dates -/

theorem quarter_step (y : Nat) :
    (y + 1 + 3) / 4 = (y + 3) / 4 + (if y % 4 = 0 then 1 else 0) := by
  by_cases h : y % 4 = 0
  · rw [if_pos h]; omega
  · rw [if_neg h]; omega

theorem century_step (y : Nat) :
    (y + 1 + 99) / 100 = (y + 99) / 100 + (if y % 100 = 0 then 1 else 0) := by
  by_cases h : y % 100 = 0
  · rw [if_pos h]; omega
  · rw [if_neg h]; omega

theorem quadricentennial_step (y : Nat) :
    (y + 1 + 399) / 400 = (y + 399) / 400 + (if y % 400 = 0 then 1 else 0) := by
  by_cases h : y % 400 = 0
  · rw [if_pos h]; omega
  · rw [if_neg h]; omega

theorem leapsBefore_succ (y : Nat) :
    leapsBefore (y + 1) = leapsBefore y + (if isLeapYear y then 1 else 0) := by
  unfold leapsBefore
  rw [quarter_step, century_step, quadricentennial_step]
  by_cases h4 : y % 4 = 0 <;> by_cases h100 : y % 100 = 0 <;>
    by_cases h400 : y % 400 = 0 <;>
    simp [isLeapYear, h4, h100, h400] <;> omega

/-- Days in a year: 365 plus the leap correction. -/
theorem yearDays_eq (y : Nat) :
    365 + (if isLeapYear y then (1 : Int) else 0) =
      monthOffset (isLeapYear y) 12 + daysInMonth y 12 := by
  cases h : isLeapYear y <;> simp [monthOffset, daysInMonth, h]

/-- The month offset table is cumulative: adding the days of month `m`
reaches the offset of month `m + 1`. -/
theorem monthOffset_step (y : Nat) {m : Nat} (h1 : 1 ≤ m) (h12 : m < 12) :
    monthOffset (isLeapYear y) m + daysInMonth y m
      = monthOffset (isLeapYear y) (m + 1) := by
  interval_cases m <;> cases h : isLeapYear y <;>
    simp [monthOffset, daysInMonth, h]

/-- Month offsets of the valid months are nonnegative. -/
theorem monthOffset_nonneg (leap : Bool) {m : Nat} (h1 : 1 ≤ m) (h12 : m ≤ 12) :
    0 ≤ monthOffset leap m := by
  interval_cases m <;> cases leap <;> norm_num [monthOffset]

/-- Within a year, the offset of a later month clears the days of an
earlier one. -/
theorem monthOffset_mono (y : Nat) {m m' : Nat} (h1 : 1 ≤ m) (hlt : m < m')
    (h12 : m' ≤ 12) :
    monthOffset (isLeapYear y) m + daysInMonth y m ≤ monthOffset (isLeapYear y) m' := by
  induction m' with
  | zero => omega
  | succ n ih =>
    by_cases hn : m < n
    · have hstep := ih hn (by omega)
      have : monthOffset (isLeapYear y) n ≤ monthOffset (isLeapYear y) (n + 1) := by
        have h1n : 1 ≤ n := by omega
        have := monthOffset_step y h1n (by omega)
        have hd : (0 : Int) ≤ daysInMonth y n := Int.natCast_nonneg _
        omega
      omega
    · have hmn : m = n := by omega
      subst hmn
      exact le_of_eq (monthOffset_step y h1 (by omega))

/-- Bound on the in-year day index. -/
theorem monthOffset_day_bound (y : Nat) {m d : Nat} (hv : ValidDate y m d) :
    monthOffset (isLeapYear y) m + (d : Int) - 1
      ≤ 364 + (if isLeapYear y then 1 else 0) := by
  obtain ⟨h1, h12, hd1, hdm⟩ := hv
  have hle : monthOffset (isLeapYear y) m + daysInMonth y m
      ≤ monthOffset (isLeapYear y) 12 + daysInMonth y 12 := by
    by_cases h : m = 12
    · subst h; omega
    · have := monthOffset_mono y h1 (show m < 12 by omega) (le_refl 12)
      have hd12 : (0 : Int) ≤ daysInMonth y 12 := Int.natCast_nonneg _
      omega
  have := yearDays_eq y
  have hdle : (d : Int) ≤ (daysInMonth y m : Int) := by exact_mod_cast hdm
  omega

/-- The year-start day count `365 y + leapsBefore y` is strictly increasing
with room for a whole year. -/
theorem yearStart_succ (y : Nat) :
    365 * ((y : Int) + 1) + leapsBefore (y + 1)
      = 365 * (y : Int) + leapsBefore y + 365 + (if isLeapYear y then 1 else 0) := by
  rw [leapsBefore_succ]
  ring

theorem yearStart_mono {y y' : Nat} (h : y ≤ y') :
    365 * (y : Int) + leapsBefore y ≤ 365 * (y' : Int) + leapsBefore y' := by
  induction y' with
  | zero => simp_all
  | succ n ih =>
    by_cases hn : y ≤ n
    · have := ih hn
      have hs := yearStart_succ n
      push_cast at hs ⊢
      by_cases hleap : isLeapYear n <;> simp [hleap] at hs <;> omega
    · have : y = n + 1 := by omega
      subst this
      exact le_refl _

/-- `epochDays` is strictly monotone in the lexicographic order of valid
civil dates. -/
theorem epochDays_lt {y m d y' m' d' : Nat}
    (hv : ValidDate y m d) (hv' : ValidDate y' m' d')
    (hlex : y < y' ∨ (y = y' ∧ m < m') ∨ (y = y' ∧ m = m' ∧ d < d')) :
    epochDays y m d < epochDays y' m' d' := by
  obtain ⟨h1, h12, hd1, hdm⟩ := hv
  obtain ⟨h1', h12', hd1', hdm'⟩ := hv'
  unfold epochDays
  rcases hlex with hy | ⟨hy, hm⟩ | ⟨hy, hm, hd⟩
  · have hbound := monthOffset_day_bound y ⟨h1, h12, hd1, hdm⟩
    have hmo' := monthOffset_nonneg (isLeapYear y') h1' h12'
    have hstep : 365 * ((y : Int) + 1) + leapsBefore (y + 1)
        = 365 * (y : Int) + leapsBefore y + 365 + (if isLeapYear y then 1 else 0) :=
      yearStart_succ y
    have hmono : 365 * ((y + 1 : Nat) : Int) + leapsBefore (y + 1)
        ≤ 365 * (y' : Int) + leapsBefore y' := yearStart_mono (by omega)
    push_cast at hmono
    have hd1'' : (1 : Int) ≤ (d' : Int) := by exact_mod_cast hd1'
    omega
  · subst hy
    have hmono := monthOffset_mono y h1 hm h12'
    have hdle : (d : Int) ≤ (daysInMonth y m : Int) := by exact_mod_cast hdm
    have hd1'' : (1 : Int) ≤ (d' : Int) := by exact_mod_cast hd1'
    omega
  · subst hy; subst hm
    have : (d : Int) < (d' : Int) := by exact_mod_cast hd
    omega

/-- `epochDays` is injective on valid civil dates. -/
theorem epochDays_inj {y m d y' m' d' : Nat}
    (hv : ValidDate y m d) (hv' : ValidDate y' m' d')
    (heq : epochDays y m d = epochDays y' m' d') :
    y = y' ∧ m = m' ∧ d = d' := by
  by_contra hne
  have hcases : (y < y' ∨ (y = y' ∧ m < m') ∨ (y = y' ∧ m = m' ∧ d < d')) ∨
      (y' < y ∨ (y' = y ∧ m' < m) ∨ (y' = y ∧ m' = m ∧ d' < d)) := by
    omega
  rcases hcases with h | h
  · exact absurd heq (ne_of_lt (epochDays_lt hv hv' h))
  · exact absurd heq.symm (ne_of_lt (epochDays_lt hv' hv h))


/-! ## Digit characters and injectivity of the ISO date parser -/

theorem digit_toNat_bounds {c : Char} (h : isDigitChar c = true) :
    48 ≤ c.toNat ∧ c.toNat ≤ 57 := by
  unfold isDigitChar at h
  rw [Bool.and_eq_true, decide_eq_true_eq, decide_eq_true_eq] at h
  exact ⟨h.1, h.2⟩

theorem digitVal_lt {c : Char} (h : isDigitChar c = true) : digitVal c < 10 := by
  obtain ⟨h1, h2⟩ := digit_toNat_bounds h
  unfold digitVal
  have h0 : ('0').toNat = 48 := rfl
  omega

/-- The character with a given digit value. -/
def digitChar (n : Nat) : Char := Char.ofNat (48 + n)

theorem digitChar_digitVal {c : Char} (h : isDigitChar c = true) :
    digitChar (digitVal c) = c := by
  obtain ⟨h1, h2⟩ := digit_toNat_bounds h
  have hv : 48 + digitVal c = c.toNat := by
    unfold digitVal
    have h0 : ('0').toNat = 48 := rfl
    omega
  unfold digitChar
  rw [hv]
  exact Char.ofNat_toNat c

theorem digit_not_ws {c : Char} (h : isDigitChar c = true) :
    isJsWhitespace c = false := by
  obtain ⟨h1, h2⟩ := digit_toNat_bounds h
  have hne : ∀ w : Char, w.toNat < 48 → ¬(c = w) := by
    intro w hw hcw
    subst hcw
    omega
  unfold isJsWhitespace
  simp only [Bool.or_eq_false_iff, decide_eq_false_iff_not]
  exact ⟨⟨⟨⟨⟨hne _ (by decide), hne _ (by decide)⟩, hne _ (by decide)⟩,
    hne _ (by decide)⟩, hne _ (by decide)⟩, hne _ (by decide)⟩

/-- The canonical ten characters of a formatted civil date. -/
def isoChars (y m d : Nat) : List Char :=
  [digitChar (y / 1000 % 10), digitChar (y / 100 % 10),
   digitChar (y / 10 % 10), digitChar (y % 10), '-',
   digitChar (m / 10 % 10), digitChar (m % 10), '-',
   digitChar (d / 10 % 10), digitChar (d % 10)]

theorem isoFields_shape {l : List Char} {y m d : Nat}
    (h : isoFields l = some (y, m, d)) :
    l = isoChars y m d ∧ y ≤ 9999 ∧ m ≤ 99 ∧ d ≤ 99 := by
  rcases l with _ | ⟨a, _ | ⟨b, _ | ⟨c, _ | ⟨d4, _ | ⟨s1, _ | ⟨e, _ | ⟨f, _ |
    ⟨s2, _ | ⟨g, _ | ⟨h10, rest⟩⟩⟩⟩⟩⟩⟩⟩⟩⟩ <;>
    first
      | (exfalso; simp [isoFields] at h; done)
      | skip
  cases rest with
  | cons x xs => exfalso; simp [isoFields, isIsoShapeChars] at h
  | nil =>
    simp only [isoFields] at h
    split at h
    case isTrue hsh =>
      simp only [isIsoShapeChars, Bool.and_eq_true, decide_eq_true_eq] at hsh
      obtain ⟨⟨⟨⟨⟨⟨⟨⟨⟨ha, hb⟩, hc⟩, hd⟩, hs1⟩, he⟩, hf⟩, hs2⟩, hg⟩, hh⟩ := hsh
      rw [Option.some_inj, Prod.mk.injEq, Prod.mk.injEq] at h
      obtain ⟨hy, hm, hd'⟩ := h
      have hval : ∀ {u v : Char},
          digitsVal [u, v] = 10 * digitVal u + digitVal v := by
        intro u v
        simp [digitsVal, List.foldl]
        try ring
      have hval4 : digitsVal [a, b, c, d4] =
          ((digitVal a * 10 + digitVal b) * 10 + digitVal c) * 10 + digitVal d4 := by
        simp [digitsVal, List.foldl]
        try ring
      have da := digitVal_lt ha
      have db := digitVal_lt hb
      have dc := digitVal_lt hc
      have dd := digitVal_lt hd
      have de := digitVal_lt he
      have df := digitVal_lt hf
      have dg := digitVal_lt hg
      have dh := digitVal_lt hh
      have hy' : y = ((digitVal a * 10 + digitVal b) * 10 + digitVal c) * 10 +
          digitVal d4 := by rw [← hy, hval4]
      have hm2 : m = 10 * digitVal e + digitVal f := by rw [← hm, hval]
      have hd2 : d = 10 * digitVal g + digitVal h10 := by rw [← hd', hval]
      refine ⟨?_, by omega, by omega, by omega⟩
      unfold isoChars
      have e1 : y / 1000 % 10 = digitVal a := by omega
      have e2 : y / 100 % 10 = digitVal b := by omega
      have e3 : y / 10 % 10 = digitVal c := by omega
      have e4 : y % 10 = digitVal d4 := by omega
      have e5 : m / 10 % 10 = digitVal e := by omega
      have e6 : m % 10 = digitVal f := by omega
      have e7 : d / 10 % 10 = digitVal g := by omega
      have e8 : d % 10 = digitVal h10 := by omega
      rw [e1, e2, e3, e4, e5, e6, e7, e8]
      rw [digitChar_digitVal ha, digitChar_digitVal hb, digitChar_digitVal hc,
        digitChar_digitVal hd, digitChar_digitVal he, digitChar_digitVal hf,
        digitChar_digitVal hg, digitChar_digitVal hh]
      rw [hs1, hs2]
    case isFalse => exact absurd h (by simp)

/-- Unfolded form of the ISO date parser. -/
theorem parse_some_iff {s : String} {t : Int} :
    parseIsoDateToUtc s = some t ↔
      ∃ y m d, isoFields s.data = some (y, m, d) ∧ ValidDate y m d ∧
        t = epochDays y m d * DAY_MS := by
  constructor
  · intro h
    cases hf : isoFields s.data with
    | none => simp [parseIsoDateToUtc, hf] at h
    | some ymd =>
      obtain ⟨y, m, d⟩ := ymd
      by_cases hv : ValidDate y m d
      · simp only [parseIsoDateToUtc, hf, if_pos hv, Option.some_inj] at h
        exact ⟨y, m, d, rfl, hv, h.symm⟩
      · simp [parseIsoDateToUtc, hf, if_neg hv] at h
  · rintro ⟨y, m, d, hf, hv, ht⟩
    simp only [parseIsoDateToUtc, hf, if_pos hv, ht]

/-- Distinct date strings that both parse successfully have distinct
timestamps: the parser is injective where it succeeds. -/
theorem parse_inj {s s' : String} {t : Int}
    (h : parseIsoDateToUtc s = some t) (h' : parseIsoDateToUtc s' = some t) :
    s = s' := by
  obtain ⟨y, m, d, hf, hv, ht⟩ := parse_some_iff.mp h
  obtain ⟨y', m', d', hf', hv', ht'⟩ := parse_some_iff.mp h'
  have hde : epochDays y m d = epochDays y' m' d' := by
    have : epochDays y m d * DAY_MS = epochDays y' m' d' * DAY_MS := by
      rw [← ht, ← ht']
    have hday : DAY_MS ≠ 0 := by norm_num [DAY_MS]
    exact mul_right_cancel₀ hday this
  obtain ⟨hy, hm, hd⟩ := epochDays_inj hv hv' hde
  subst hy; subst hm; subst hd
  have h1 := (isoFields_shape hf).1
  have h2 := (isoFields_shape hf').1
  exact String.ext (h1.trans h2.symm)

/-- Trimming a string of ISO date shape is the identity. -/
theorem jsTrim_isoShape {s : String} (h : isIsoShape s = true) : jsTrim s = s := by
  unfold isIsoShape at h
  rcases hs : s.data with _ | ⟨a, _ | ⟨b, _ | ⟨c, _ | ⟨d4, _ | ⟨s1, _ | ⟨e, _ |
    ⟨f, _ | ⟨s2, _ | ⟨g, _ | ⟨h10, rest⟩⟩⟩⟩⟩⟩⟩⟩⟩⟩ <;>
    rw [hs] at h <;>
    first
      | (exfalso; simp [isIsoShapeChars] at h; done)
      | skip
  cases rest with
  | cons x xs => exfalso; simp [isIsoShapeChars] at h
  | nil =>
    simp only [isIsoShapeChars, Bool.and_eq_true, decide_eq_true_eq] at h
    obtain ⟨⟨⟨⟨⟨⟨⟨⟨⟨ha, hb⟩, hc⟩, hd⟩, hs1⟩, he⟩, hf⟩, hs2⟩, hg⟩, hh⟩ := h
    apply String.ext
    rw [jsTrim]
    show trimChars s.data = s.data
    rw [hs]
    simp [trimChars, List.dropWhile, digit_not_ws ha, digit_not_ws hh]

/-! ## Facts about the date/value map of the normalizer -/

/-- `mapSet` leaves the key list unchanged when the key is present, and
appends it when absent. -/
theorem mapSet_keys (m : List (String × ℚ)) (k : String) (v : ℚ) :
    (mapSet m k v).map Prod.fst = m.map Prod.fst ∨
    (mapSet m k v).map Prod.fst = m.map Prod.fst ++ [k] := by
  unfold mapSet
  by_cases h : m.any (fun e => e.1 = k) = true
  · left
    rw [if_pos h, List.map_map]
    apply List.map_congr_left
    intro e _
    by_cases he : e.1 = k <;> simp [he]
  · right
    rw [if_neg h]
    simp

/-- `mapSet` preserves distinctness of the keys. -/
theorem mapSet_nodup {m : List (String × ℚ)} (k : String) (v : ℚ)
    (hm : (m.map Prod.fst).Nodup) : ((mapSet m k v).map Prod.fst).Nodup := by
  unfold mapSet
  by_cases h : m.any (fun e => e.1 = k) = true
  · rw [if_pos h, List.map_map]
    have : (m.map (fun e => if e.1 = k then (k, v) else e)).map Prod.fst
        = m.map Prod.fst := by
      rw [List.map_map]
      apply List.map_congr_left
      intro e _
      by_cases he : e.1 = k <;> simp [he]
    rw [← List.map_map, this]
    exact hm
  · rw [if_neg h]
    simp only [List.map_append, List.map_cons, List.map_nil]
    rw [List.nodup_append]
    refine ⟨hm, List.nodup_singleton k, ?_⟩
    intro x hx
    simp only [List.mem_singleton]
    intro hk
    subst hk
    simp only [List.any_eq_true, not_exists, not_and, Bool.not_eq_true] at h
    obtain ⟨e, he, hek⟩ := List.mem_map.mp hx
    have := h e he
    simp [hek] at this

/-- Keys added by folding `normStep` either were already present or are
trimmed shape-valid dates of the processed points. -/
theorem foldl_normStep_keys :
    ∀ (rest : List RawPoint) (m : List (String × ℚ)),
      ∀ k ∈ (rest.foldl normStep m).map Prod.fst,
        k ∈ m.map Prod.fst ∨
          (isIsoShape k = true ∧ ∃ p ∈ rest, k = jsTrim p.date) := by
  intro rest
  induction rest with
  | nil => intro m k hk; exact Or.inl hk
  | cons p t ih =>
    intro m k hk
    rw [List.foldl_cons] at hk
    rcases ih (normStep m p) k hk with hin | ⟨hsh, q, hq, hqd⟩
    · unfold normStep at hin
      cases hv : p.value with
      | none => rw [hv] at hin; exact Or.inl hin
      | some v =>
        rw [hv] at hin
        simp only at hin
        by_cases hshape : isIsoShape (jsTrim p.date) = true
        · rw [if_pos hshape] at hin
          rcases mapSet_keys m (jsTrim p.date) v with he | he
          · rw [he] at hin; exact Or.inl hin
          · rw [he] at hin
            rcases List.mem_append.mp hin with h1 | h1
            · exact Or.inl h1
            · rw [List.mem_singleton] at h1
              exact Or.inr ⟨h1 ▸ hshape, p, List.mem_cons_self p t, h1⟩
        · rw [if_neg hshape] at hin; exact Or.inl hin
    · exact Or.inr ⟨hsh, q, List.mem_cons_of_mem p hq, hqd⟩

/-- Every key in the normalizer's map is a trimmed, shape-valid date from
the input list. -/
theorem buildPointMap_keys (pts : List RawPoint) :
    ∀ k ∈ (buildPointMap pts).map Prod.fst,
      isIsoShape k = true ∧ ∃ p ∈ pts, k = jsTrim p.date := by
  intro k hk
  rcases foldl_normStep_keys pts [] k hk with h | h
  · simp at h
  · exact h

/-- The keys of the normalizer's map are pairwise distinct. -/
theorem buildPointMap_nodup (pts : List RawPoint) :
    ((buildPointMap pts).map Prod.fst).Nodup := by
  suffices h : ∀ (rest : List RawPoint) (m : List (String × ℚ)),
      (m.map Prod.fst).Nodup → ((rest.foldl normStep m).map Prod.fst).Nodup by
    exact h pts [] (by simp)
  intro rest
  induction rest with
  | nil => intro m hm; exact hm
  | cons p t ih =>
    intro m hm
    rw [List.foldl_cons]
    apply ih
    unfold normStep
    cases p.value with
    | none => exact hm
    | some v =>
      simp only
      by_cases hshape : isIsoShape (jsTrim p.date) = true
      · rw [if_pos hshape]; exact mapSet_nodup _ v hm
      · rw [if_neg hshape]; exact hm


/-- Setting an absent key appends it. -/
theorem mapSet_not_mem {m : List (String × ℚ)} {k : String}
    (h : k ∉ m.map Prod.fst) (v : ℚ) : mapSet m k v = m ++ [(k, v)] := by
  unfold mapSet
  rw [if_neg]
  simp only [List.any_eq_true, not_exists, not_and]
  intro e he hek
  exact h (List.mem_map.mpr ⟨e, he, of_decide_eq_true hek⟩)

/-- Folding the normalizer step over already-clean entries just appends
them. -/
theorem foldl_normStep_of_valid :
    ∀ (es m : List (String × ℚ)),
      (∀ k ∈ es.map Prod.fst, isIsoShape k = true) →
      (m.map Prod.fst ++ es.map Prod.fst).Nodup →
      (es.map (fun e => (⟨e.1, some e.2⟩ : RawPoint))).foldl normStep m = m ++ es := by
  intro es
  induction es with
  | nil => intro m _ _; simp
  | cons e t ih =>
    intro m hiso hnd
    obtain ⟨k, v⟩ := e
    simp only [List.map_cons, List.foldl_cons]
    have hk : isIsoShape k = true := hiso k (by simp)
    have hkm : k ∉ m.map Prod.fst := by
      rw [List.map_cons, List.nodup_append] at hnd
      intro hmem
      exact hnd.2.2 hmem (by simp)
    have hstep : normStep m ⟨k, some v⟩ = m ++ [(k, v)] := by
      unfold normStep
      simp only
      rw [jsTrim_isoShape hk, if_pos hk]
      exact mapSet_not_mem hkm v
    rw [hstep]
    have hnd' : ((m ++ [(k, v)]).map Prod.fst ++ t.map Prod.fst).Nodup := by
      simp only [List.map_append, List.map_cons, List.map_nil, List.map_cons] at hnd ⊢
      have hperm : (m.map Prod.fst ++ [k] ++ t.map Prod.fst).Perm
          (m.map Prod.fst ++ k :: t.map Prod.fst) := by
        rw [List.append_assoc]
        exact List.Perm.refl _
      exact hperm.nodup_iff.mpr hnd
    rw [ih (m ++ [(k, v)]) (fun k' hk' => hiso k' (by simp [hk'])) hnd']
    simp

/-- The normalizer's map-building pass is the identity on a clean entry
list. -/
theorem buildPointMap_of_normalized (es : List (String × ℚ))
    (hiso : ∀ k ∈ es.map Prod.fst, isIsoShape k = true)
    (hnodup : (es.map Prod.fst).Nodup) :
    buildPointMap (es.map (fun e => (⟨e.1, some e.2⟩ : RawPoint))) = es := by
  unfold buildPointMap
  have h := foldl_normStep_of_valid es [] hiso (by simpa using hnodup)
  simpa using h

/-- Dates in a normalized series are pairwise distinct, for every input. -/
theorem normalizePoints_dates_nodup (pts : List RawPoint) :
    ((normalizePoints pts).map Point.date).Nodup := by
  unfold normalizePoints
  rw [List.map_map]
  have hc : (Point.date ∘ fun e : String × ℚ => (⟨e.1, e.2⟩ : Point)) = Prod.fst := rfl
  rw [hc]
  exact ((jsStableSort_perm dateLe _).map Prod.fst).nodup_iff.mpr
    (buildPointMap_nodup pts)

/-- The Point Normalizer is idempotent on every input point list. -/
theorem normalizePoints_idem (pts : List RawPoint) :
    normalizePoints ((normalizePoints pts).map Point.toRaw) = normalizePoints pts := by
  unfold normalizePoints
  rw [List.map_map]
  have hcomp : (Point.toRaw ∘ fun e : String × ℚ => (⟨e.1, e.2⟩ : Point)) =
      fun e : String × ℚ => (⟨e.1, some e.2⟩ : RawPoint) := rfl
  rw [hcomp]
  have hperm := jsStableSort_perm dateLe (buildPointMap pts)
  have hiso : ∀ k ∈ (jsStableSort dateLe (buildPointMap pts)).map Prod.fst,
      isIsoShape k = true := by
    intro k hk
    have hmem : k ∈ (buildPointMap pts).map Prod.fst :=
      ((hperm.map Prod.fst).mem_iff).mp hk
    exact (buildPointMap_keys pts k hmem).1
  have hnodup : ((jsStableSort dateLe (buildPointMap pts)).map Prod.fst).Nodup :=
    ((hperm.map Prod.fst).nodup_iff).mpr (buildPointMap_nodup pts)
  rw [buildPointMap_of_normalized _ hiso hnodup]
  rw [jsStableSort_idem dateLe dateLe_total]

/-! ## Strict ordering of normalized dates -/

/-- Comparator-level strict order on points by parsed UTC date; `false`
when either date fails to parse. -/
def pointLtB (p q : Point) : Bool :=
  match parseIsoDateToUtc p.date, parseIsoDateToUtc q.date with
  | some x, some y => x < y
  | _, _ => false

/-- A point list is strictly increasing by parsed UTC date. -/
def datesStrictlyIncreasing : List Point → Bool
  | [] => true
  | [_] => true
  | p :: q :: rest => pointLtB p q && datesStrictlyIncreasing (q :: rest)

/-- Clean sorted entry lists map to strictly increasing point lists. -/
theorem strict_of_chain :
    ∀ es : List (String × ℚ),
      es.Chain' (fun a b => dateLe a b = true) →
      (es.map Prod.fst).Nodup →
      (∀ k ∈ es.map Prod.fst, (parseIsoDateToUtc k).isSome = true) →
      datesStrictlyIncreasing (es.map (fun e => (⟨e.1, e.2⟩ : Point))) = true := by
  intro es
  induction es with
  | nil => intro _ _ _; rfl
  | cons e t ih =>
    intro hch hnd hsome
    cases t with
    | nil => rfl
    | cons e2 u =>
      have hch' := List.chain'_cons.mp hch
      obtain ⟨x, hx⟩ := Option.isSome_iff_exists.mp (hsome e.1 (by simp))
      obtain ⟨y, hy⟩ := Option.isSome_iff_exists.mp (hsome e2.1 (by simp))
      have hle : x ≤ y := by
        have := hch'.1
        unfold dateLe at this
        rw [hx, hy] at this
        exact of_decide_eq_true this
      have hnd1 : (e.1 :: e2.1 :: u.map Prod.fst).Nodup := by simpa using hnd
      have hne : e.1 ≠ e2.1 := by
        intro hcon
        exact (List.nodup_cons.mp hnd1).1 (hcon ▸ List.mem_cons_self _ _)
      have hxy : x ≠ y := by
        intro hcon
        subst hcon
        exact hne (parse_inj hx hy)
      have hltb : pointLtB ⟨e.1, e.2⟩ ⟨e2.1, e2.2⟩ = true := by
        unfold pointLtB
        simp only
        rw [hx, hy]
        exact decide_eq_true (lt_of_le_of_ne hle hxy)
      have hrest : datesStrictlyIncreasing
          ((e2 :: u).map (fun e => (⟨e.1, e.2⟩ : Point))) = true := by
        apply ih hch.tail
        · simpa using (List.nodup_cons.mp hnd1).2
        · intro k hk
          apply hsome k
          simp only [List.map_cons, List.mem_cons] at hk ⊢
          exact Or.inr hk
      show (pointLtB ⟨e.1, e.2⟩ ⟨e2.1, e2.2⟩ &&
        datesStrictlyIncreasing ((e2 :: u).map (fun e => (⟨e.1, e.2⟩ : Point)))) = true
      rw [Bool.and_eq_true]
      exact ⟨hltb, hrest⟩

/-- When every regex-matching date in the input is an actual calendar
date, the normalized output is strictly increasing by parsed UTC date. -/
theorem normalizePoints_strict (pts : List RawPoint)
    (h : ∀ p ∈ pts, isIsoShape (jsTrim p.date) = true →
        (parseIsoDateToUtc (jsTrim p.date)).isSome = true) :
    datesStrictlyIncreasing (normalizePoints pts) = true := by
  unfold normalizePoints
  have hperm := jsStableSort_perm dateLe (buildPointMap pts)
  have hkeys : ∀ k ∈ (jsStableSort dateLe (buildPointMap pts)).map Prod.fst,
      isIsoShape k = true ∧ ∃ p ∈ pts, k = jsTrim p.date := by
    intro k hk
    exact buildPointMap_keys pts k (((hperm.map Prod.fst).mem_iff).mp hk)
  apply strict_of_chain
  · exact chain_jsStableSort dateLe dateLe_total _
  · exact ((hperm.map Prod.fst).nodup_iff).mpr (buildPointMap_nodup pts)
  · intro k hk
    obtain ⟨hiso, p, hp, hkp⟩ := hkeys k hk
    subst hkp
    exact h p hp hiso


/-! ## The fetch client

`fetchWithRetry` performs up to `FETCH_RETRY_ATTEMPTS` attempts; each
attempt can fail in transport (fetch/timeout rejection), carry a non-2xx
status, or — for the requested response kind — fail while parsing the
body (`response.json()` rejecting inside the same `try`).  A run of the
loop is driven by an oracle giving the outcome of each attempt. -/

/-- Outcome of one HTTP attempt for a requested response kind. -/
inductive AttemptOutcome (α : Type) where
  | transportError
  | badStatus (status : Nat)
  | parseFailure
  | value (v : α)
  deriving DecidableEq

/-- The `FETCH_RETRY_ATTEMPTS` constant from the source. -/
def FETCH_RETRY_ATTEMPTS : Nat := 3

/-- The attempt loop of `fetchWithRetry`: only a fully successful attempt
(transport ok, 2xx, body parsed) returns; every other outcome falls
through to the next attempt.  Also returns the number of attempts
consumed. -/
def fetchLoop (oracle : Nat → AttemptOutcome α) : Nat → Nat → Except Unit α × Nat
  | _, 0 => (.error (), 0)
  | attempt, rem + 1 =>
    match oracle attempt with
    | .value v => (.ok v, 1)
    | _ =>
      let r := fetchLoop oracle (attempt + 1) rem
      (r.1, r.2 + 1)

/-- Model of `fetchWithRetry` (the value returned or a final error). -/
def fetchWithRetry (oracle : Nat → AttemptOutcome α) : Except Unit α :=
  (fetchLoop oracle 1 FETCH_RETRY_ATTEMPTS).1

/-- Number of attempts the retry loop consumed. -/
def fetchAttemptsUsed (oracle : Nat → AttemptOutcome α) : Nat :=
  (fetchLoop oracle 1 FETCH_RETRY_ATTEMPTS).2

/-! ## The map snapshot fetcher -/

/-- Net result of `fetchBinary` for one URL: a thrown error or the bytes. -/
inductive FetchBinResult where
  | err (msg : String)
  | ok (bytes : List Nat)
  deriving DecidableEq

/-- The result record of `downloadMapWithFallback`. -/
structure MapSnapshot where
  bytes : List Nat
  url : String
  dateIso : String
  deriving DecidableEq, Repr

/-- The candidate loop of `downloadMapWithFallback` over the remaining
`backDays` values. -/
def fallbackLoop (oracle : String → FetchBinResult) (buildUrl : Int → Nat → String)
    (dateIso : String) : List Nat → Option String → Except (Option String) MapSnapshot
  | [], lastErr => .error lastErr
  | back :: rest, lastErr =>
    match addUtcDays dateIso (-(back : Int)) with
    | none => fallbackLoop oracle buildUrl dateIso rest lastErr
    | some candDate =>
      match yearDayFromIso candDate with
      | none => fallbackLoop oracle buildUrl dateIso rest lastErr
      | some (y, doy) =>
        match oracle (buildUrl y doy) with
        | .err e => fallbackLoop oracle buildUrl dateIso rest (some e)
        | .ok bytes =>
          if 0 < bytes.length then .ok ⟨bytes, buildUrl y doy, candDate⟩
          else fallbackLoop oracle buildUrl dateIso rest lastErr

/-- Model of `downloadMapWithFallback`: probe the requested date and then
up to `maxBackDays` earlier days, returning the first non-empty binary. -/
def downloadMapWithFallback (oracle : String → FetchBinResult)
    (buildUrl : Int → Nat → String) (dateIso : String)
    (maxBackDays : Nat := 20) : Except (Option String) MapSnapshot :=
  if dateIso = "" then .error (some "Missing map date.")
  else fallbackLoop oracle buildUrl dateIso (List.range (maxBackDays + 1)) none

/-- A candidate day offset does not produce a non-empty download: the date
shift or year-day computation fails, the download throws, or it returns an
empty binary. -/
def mapCandidateFailsB (oracle : String → FetchBinResult)
    (buildUrl : Int → Nat → String) (dateIso : String) (j : Nat) : Bool :=
  match addUtcDays dateIso (-(j : Int)) with
  | none => true
  | some c =>
    match yearDayFromIso c with
    | none => true
    | some (y, doy) =>
      match oracle (buildUrl y doy) with
      | .err _ => true
      | .ok bs => bs.length = 0

/-- The T2 map URL builder from the source. -/
def mapDayToken (dayOfYear : Nat) : String :=
  let clamped := max 1 (min 366 dayOfYear)
  if clamped < 10 then "00" ++ toString clamped
  else if clamped < 100 then "0" ++ toString clamped
  else toString clamped

/-- Model of `buildT2MapUrl`. -/
def buildT2MapUrl (year : Int) (dayOfYear : Nat) : String :=
  "https://cr.acg.maine.edu/clim/t2_daily/maps/t2/world-wt/" ++ toString year ++
    "/t2_world-wt_" ++ toString year ++ "_d" ++ mapDayToken dayOfYear ++ ".png"

/-! ## The dataset assembler tail of `updateOnce` -/

/-- The eighteen sanitized series assembled into `output.series`. -/
structure SeriesBundle where
  globalSurfaceTemperature : List Point
  globalSeaSurfaceTemperature : List Point
  globalMeanSeaLevel : List Point
  oceanHeatContent : List Point
  northernHemisphereSurfaceTemperature : List Point
  southernHemisphereSurfaceTemperature : List Point
  arcticSurfaceTemperature : List Point
  antarcticSurfaceTemperature : List Point
  northAtlanticSeaSurfaceTemperature : List Point
  globalSurfaceTemperatureAnomaly : List Point
  globalSeaSurfaceTemperatureAnomaly : List Point
  dailyGlobalMeanTemperatureAnomaly : List Point
  globalSeaIceExtent : List Point
  arcticSeaIceExtent : List Point
  antarcticSeaIceExtent : List Point
  atmosphericCo2 : List Point
  atmosphericCh4 : List Point
  atmosphericAggi : List Point
  deriving DecidableEq

/-- `output.series` in its key order from the source. -/
def outputSeries (b : SeriesBundle) : List (String × List Point) :=
  [("global_surface_temperature", b.globalSurfaceTemperature),
   ("global_sea_surface_temperature", b.globalSeaSurfaceTemperature),
   ("global_mean_sea_level", b.globalMeanSeaLevel),
   ("ocean_heat_content", b.oceanHeatContent),
   ("northern_hemisphere_surface_temperature", b.northernHemisphereSurfaceTemperature),
   ("southern_hemisphere_surface_temperature", b.southernHemisphereSurfaceTemperature),
   ("arctic_surface_temperature", b.arcticSurfaceTemperature),
   ("antarctic_surface_temperature", b.antarcticSurfaceTemperature),
   ("north_atlantic_sea_surface_temperature", b.northAtlanticSeaSurfaceTemperature),
   ("global_surface_temperature_anomaly", b.globalSurfaceTemperatureAnomaly),
   ("global_sea_surface_temperature_anomaly", b.globalSeaSurfaceTemperatureAnomaly),
   ("daily_global_mean_temperature_anomaly", b.dailyGlobalMeanTemperatureAnomaly),
   ("global_sea_ice_extent", b.globalSeaIceExtent),
   ("arctic_sea_ice_extent", b.arcticSeaIceExtent),
   ("antarctic_sea_ice_extent", b.antarcticSeaIceExtent),
   ("atmospheric_co2", b.atmosphericCo2),
   ("atmospheric_ch4", b.atmosphericCh4),
   ("atmospheric_aggi", b.atmosphericAggi)]

/-- The keys of the empty series, as computed before the final write. -/
def emptySeriesKeys (entries : List (String × List Point)) : List String :=
  (entries.filter (fun e => e.2.length = 0)).map Prod.fst

/-- File-system writes performed by `updateOnce` after the fetch phase. -/
inductive WriteEvent where
  | mapWrite (fileName : String)
  | datasetWrite
  deriving DecidableEq

/-- Net outcome of one map job in the map loop. -/
inductive MapJobOutcome where
  | fetched (bytes : List Nat) (url : String) (dateIso : String)
  | failedWithExistingFile
  | failedMissing
  deriving DecidableEq

/-- The writes of the map loop: only a successful download writes its
file. -/
def mapJobWrites (jobs : List (String × MapJobOutcome)) : List WriteEvent :=
  jobs.filterMap (fun j =>
    match j.2 with
    | .fetched _ _ _ => some (.mapWrite j.1)
    | _ => none)

/-- Model of the tail of `updateOnce` (map loop, empty-series gate, dataset
write): the write-event trace and the run outcome, where a failure carries
the offending series keys from the thrown message. -/
def updateOnceTail (b : SeriesBundle) (mapJobs : List (String × MapJobOutcome)) :
    List WriteEvent × Except (List String) Unit :=
  let writes := mapJobWrites mapJobs
  let empty := emptySeriesKeys (outputSeries b)
  if empty = [] then (writes ++ [.datasetWrite], .ok ())
  else (writes, .error empty)


/-! ## The artifact Verifier

Model of the verification script: `SERIES_RULES`, `verifySeries` and the
error-collecting `main` pass.  Error and warning messages are represented
structurally (constructor + the data interpolated into the message) rather
than as formatted strings. -/

/-- One series' verification rules from `SERIES_RULES`. -/
structure VRules where
  minValue : ℚ
  maxValue : ℚ
  maxAgeDays : Int
  minPoints : Nat
  minPointsLastYear : Nat
  deriving DecidableEq

/-- The `SERIES_RULES` table from the verifier script. -/
def SERIES_RULES : List (String × VRules) :=
  [("global_surface_temperature", ⟨5, 40, 20, 20000, 300⟩),
   ("global_sea_surface_temperature", ⟨10, 40, 45, 8000, 250⟩),
   ("global_sea_ice_extent", ⟨0, 60, 20, 8000, 300⟩),
   ("atmospheric_co2", ⟨200, 700, 120, 8000, 120⟩)]

/-- A JSON array element as inspected by the per-point loop: either not a
point-shaped object, or an object with an optional string `date` field and
a `value` field whose `Number(...)` coercion is modelled directly
(`none` = non-finite). -/
inductive JPoint where
  | junk
  | pt (date : Option String) (value : Option ℚ)
  deriving DecidableEq

/-- A JSON value sitting under `payload.series[key]`. -/
inductive JVal where
  | notArray
  | arr (pts : List JPoint)
  deriving DecidableEq

/-- A summary entry: `points` and `latestValue` after `Number(...)`
coercion, `latestDate` when it is a string. -/
structure VSummaryEntry where
  points : Option ℚ
  latestDate : Option String
  latestValue : Option ℚ
  deriving DecidableEq

/-- The parsed artifact as far as the verifier inspects it. -/
structure VPayload where
  generatedAtIso : Option String
  series : Option (List (String × JVal))
  summary : Option (List (String × VSummaryEntry))
  deriving DecidableEq

/-- Object-field lookup on an embedded JSON object. -/
def lookupKey (m : List (String × α)) (k : String) : Option α :=
  (m.find? (fun e => e.1 = k)).map (fun e => e.2)

/-- `payload.series[key]` (`none` when `series` or the key is absent). -/
def getSeriesVal (p : VPayload) (k : String) : Option JVal :=
  p.series.bind (fun s => lookupKey s k)

/-- Model of `getSummaryEntry`. -/
def getSummaryEntry (p : VPayload) (k : String) : Option VSummaryEntry :=
  p.summary.bind (fun s => lookupKey s k)

/-- Shape check for the time-of-day part of an ISO datetime
(`HH:MM:SS[.fff]Z`), as produced by `toISOString`. -/
def isoTimeShape : List Char → Bool
  | h1 :: h2 :: ':' :: m1 :: m2 :: ':' :: s1 :: s2 :: rest =>
    isDigitChar h1 && isDigitChar h2 && isDigitChar m1 && isDigitChar m2 &&
    isDigitChar s1 && isDigitChar s2 &&
    digitsVal [h1, h2] < 24 && digitsVal [m1, m2] < 60 &&
    digitsVal [s1, s2] < 60 &&
    (match rest with
     | ['Z'] => true
     | '.' :: d1 :: d2 :: d3 :: ['Z'] =>
       isDigitChar d1 && isDigitChar d2 && isDigitChar d3
     | _ => false)
  | _ => false

/-- Model of `Number.isFinite(Date.parse(s))` for the strings the artifact
actually carries: a plain ISO date or an ISO datetime as produced by
`toISOString`. -/
def jsDateParseFinite (s : String) : Bool :=
  match s.data.span (fun c => c ≠ 'T') with
  | (datePart, []) => (parseIsoDateToUtc ⟨datePart⟩).isSome
  | (datePart, _ :: timePart) =>
    (parseIsoDateToUtc ⟨datePart⟩).isSome && isoTimeShape timePart

/-- Structured verification errors (constructor plus interpolated data). -/
inductive VError where
  | generatedAtInvalid
  | notArray (key : String)
  | tooFewPoints (key : String) (n : Nat) (want : Nat)
  | invalidPointObject (key : String) (idx : Nat)
  | invalidDate (key : String) (idx : Nat)
  | nonNumericValue (key : String) (idx : Nat)
  | outOfRange (key : String) (date : String) (v : ℚ)
  | notIncreasing (key : String) (date : String)
  | futureDate (key : String) (date : String)
  | staleLatest (key : String) (date : String) (ageDays : Int)
  | noValidPoints (key : String)
  | summaryPointsMismatch (key : String) (sp : Option ℚ) (len : Nat)
  | summaryLatestDateMismatch (key : String) (sd : Option String) (d : String)
  | summaryLatestValueMismatch (key : String) (sv : Option ℚ) (v : ℚ)
  deriving DecidableEq

/-- Structured verification warnings. -/
inductive VWarn where
  | sparseRecentData (key : String) (n : Nat)
  | missingSummaryEntry (key : String)
  deriving DecidableEq

/-- `ts <= previousTs` where `previousTs` starts at `-Infinity`. -/
def tsLeqPrev (prev : Option Int) (ts : Int) : Bool :=
  match prev with
  | none => false
  | some p => ts ≤ p

/-- State of the per-point loop of `verifySeries`. -/
structure VLoopState where
  prevTs : Option Int
  lastPoint : Option (String × ℚ × Int)
  pointsLastYear : Nat
  errors : List VError
  deriving DecidableEq

/-- The per-point loop of `verifySeries`: each failing check records an
error and skips the point (the non-increasing check leaves `previousTs`
unchanged; a future date has already advanced `previousTs`). -/
def verifyLoop (key : String) (rules : VRules) (now : Int) :
    Nat → VLoopState → List JPoint → VLoopState
  | _, st, [] => st
  | idx, st, p :: rest =>
    let st' : VLoopState :=
      match p with
      | .junk => { st with errors := st.errors ++ [.invalidPointObject key idx] }
      | .pt dateOpt value =>
        let date := match dateOpt with
          | some s => jsTrim s
          | none => ""
        match parseIsoDateToUtc date with
        | none => { st with errors := st.errors ++ [.invalidDate key idx] }
        | some ts =>
          match value with
          | none => { st with errors := st.errors ++ [.nonNumericValue key idx] }
          | some v =>
            if v < rules.minValue ∨ rules.maxValue < v then
              { st with errors := st.errors ++ [.outOfRange key date v] }
            else if tsLeqPrev st.prevTs ts then
              { st with errors := st.errors ++ [.notIncreasing key date] }
            else if now < ts then
              { st with prevTs := some ts,
                        errors := st.errors ++ [.futureDate key date] }
            else
              { st with prevTs := some ts,
                        lastPoint := some (date, v, ts),
                        pointsLastYear := st.pointsLastYear +
                          (if now - 365 * DAY_MS ≤ ts then 1 else 0) }
    verifyLoop key rules now (idx + 1) st' rest

/-- Model of `verifySeries`: the errors and warnings it appends for one
series. -/
def verifySeries (key : String) (rules : VRules) (sv : Option JVal)
    (summaryEntry : Option VSummaryEntry) (now : Int) :
    List VError × List VWarn :=
  match sv with
  | none => ([.notArray key], [])
  | some .notArray => ([.notArray key], [])
  | some (.arr pts) =>
    let lenErr : List VError :=
      if pts.length < rules.minPoints then
        [.tooFewPoints key pts.length rules.minPoints]
      else []
    let st := verifyLoop key rules now 0 ⟨none, none, 0, []⟩ pts
    match st.lastPoint with
    | none => (lenErr ++ st.errors ++ [.noValidPoints key], [])
    | some lp =>
      let ageDays := (now - lp.2.2).fdiv DAY_MS
      let staleErr : List VError :=
        if rules.maxAgeDays < ageDays then [.staleLatest key lp.1 ageDays] else []
      let sparseWarn : List VWarn :=
        if st.pointsLastYear < rules.minPointsLastYear then
          [.sparseRecentData key st.pointsLastYear]
        else []
      match summaryEntry with
      | none => (lenErr ++ st.errors ++ staleErr, sparseWarn ++ [.missingSummaryEntry key])
      | some entry =>
        let pointsErr : List VError :=
          if (match entry.points with
              | some q => decide (q = (pts.length : ℚ))
              | none => false) = true then []
          else [.summaryPointsMismatch key entry.points pts.length]
        let dateErr : List VError :=
          if entry.latestDate = some lp.1 then []
          else [.summaryLatestDateMismatch key entry.latestDate lp.1]
        let valueErr : List VError :=
          if (match entry.latestValue with
              | some q => decide (|q - lp.2.1| ≤ 1 / 1000000000)
              | none => false) = true then []
          else [.summaryLatestValueMismatch key entry.latestValue lp.2.1]
        (lenErr ++ st.errors ++ staleErr ++ pointsErr ++ dateErr ++ valueErr,
         sparseWarn)

/-- Model of the verifier's `main` pass over the parsed artifact: the
collected errors and warnings, or the thrown message when the series
object is missing. -/
def verifierRun (p : VPayload) (now : Int) :
    Except String (List VError × List VWarn) :=
  match p.series with
  | none => .error "series is missing or invalid."
  | some _ =>
    let genErrs : List VError :=
      match p.generatedAtIso with
      | none => [.generatedAtInvalid]
      | some s => if jsDateParseFinite s then [] else [.generatedAtInvalid]
    .ok (SERIES_RULES.foldl
      (fun acc kr =>
        let res := verifySeries kr.1 kr.2 (getSeriesVal p kr.1)
          (getSummaryEntry p kr.1) now
        (acc.1 ++ res.1, acc.2 ++ res.2))
      (genErrs, []))

/-! ## Accepted points: the per-point checks as a standalone pass -/

/-- The subsequence of points that pass every per-point check of
`verifySeries`, tracking only the running `previousTs` (a future-dated
point advances it without being accepted). -/
def acceptedFrom (rules : VRules) (now : Int) :
    List JPoint → Option Int → List (String × ℚ × Int)
  | [], _ => []
  | p :: rest, prev =>
    match p with
    | .junk => acceptedFrom rules now rest prev
    | .pt dateOpt value =>
      let date := match dateOpt with
        | some s => jsTrim s
        | none => ""
      match parseIsoDateToUtc date with
      | none => acceptedFrom rules now rest prev
      | some ts =>
        match value with
        | none => acceptedFrom rules now rest prev
        | some v =>
          if v < rules.minValue ∨ rules.maxValue < v then
            acceptedFrom rules now rest prev
          else if tsLeqPrev prev ts then
            acceptedFrom rules now rest prev
          else if now < ts then
            acceptedFrom rules now rest (some ts)
          else
            (date, v, ts) :: acceptedFrom rules now rest (some ts)

/-- The points that pass every per-point check of `verifySeries`. -/
def acceptedPoints (rules : VRules) (now : Int) (pts : List JPoint) :
    List (String × ℚ × Int) :=
  acceptedFrom rules now pts none

/-- `verifySeries` on an array, re-expressed through `acceptedPoints`:
the freshness check, the recent-density count and the summary comparison
all derive from the accepted subsequence. -/
def verifySeriesViaAccepted (key : String) (rules : VRules) (pts : List JPoint)
    (summaryEntry : Option VSummaryEntry) (now : Int) :
    List VError × List VWarn :=
  let lenErr : List VError :=
    if pts.length < rules.minPoints then
      [.tooFewPoints key pts.length rules.minPoints]
    else []
  let loopErrs := (verifyLoop key rules now 0 ⟨none, none, 0, []⟩ pts).errors
  let good := acceptedPoints rules now pts
  let recent := good.countP (fun lp => decide (now - 365 * DAY_MS ≤ lp.2.2))
  match good.getLast? with
  | none => (lenErr ++ loopErrs ++ [.noValidPoints key], [])
  | some lp =>
    let ageDays := (now - lp.2.2).fdiv DAY_MS
    let staleErr : List VError :=
      if rules.maxAgeDays < ageDays then [.staleLatest key lp.1 ageDays] else []
    let sparseWarn : List VWarn :=
      if recent < rules.minPointsLastYear then
        [.sparseRecentData key recent]
      else []
    match summaryEntry with
    | none => (lenErr ++ loopErrs ++ staleErr, sparseWarn ++ [.missingSummaryEntry key])
    | some entry =>
      let pointsErr : List VError :=
        if (match entry.points with
            | some q => decide (q = (pts.length : ℚ))
            | none => false) = true then []
        else [.summaryPointsMismatch key entry.points pts.length]
      let dateErr : List VError :=
        if entry.latestDate = some lp.1 then []
        else [.summaryLatestDateMismatch key entry.latestDate lp.1]
      let valueErr : List VError :=
        if (match entry.latestValue with
            | some q => decide (|q - lp.2.1| ≤ 1 / 1000000000)
            | none => false) = true then []
        else [.summaryLatestValueMismatch key entry.latestValue lp.2.1]
      (lenErr ++ loopErrs ++ staleErr ++ pointsErr ++ dateErr ++ valueErr,
       sparseWarn)


/-- The loop state of `verifySeries` tracks exactly the accepted
subsequence: the final `lastPoint` is its last element and
`pointsLastYear` counts its recent members. -/
theorem verifyLoop_accepted (key : String) (rules : VRules) (now : Int) :
    ∀ (pts : List JPoint) (idx : Nat) (st : VLoopState),
      (verifyLoop key rules now idx st pts).lastPoint =
        (match (acceptedFrom rules now pts st.prevTs).getLast? with
         | some lp => some lp
         | none => st.lastPoint) ∧
      (verifyLoop key rules now idx st pts).pointsLastYear =
        st.pointsLastYear + (acceptedFrom rules now pts st.prevTs).countP
          (fun lp => decide (now - 365 * DAY_MS ≤ lp.2.2)) := by
  intro pts
  induction pts with
  | nil =>
    intro idx st
    simp [verifyLoop, acceptedFrom]
  | cons p rest ih =>
    intro idx st
    cases p with
    | junk =>
      simp only [verifyLoop, acceptedFrom]
      exact ih (idx + 1) _
    | pt dateOpt value =>
      simp only [verifyLoop, acceptedFrom]
      generalize (match dateOpt with
        | some s => jsTrim s
        | none => "") = date
      cases hts : parseIsoDateToUtc date with
      | none => exact ih (idx + 1) _
      | some ts =>
        cases value with
        | none => exact ih (idx + 1) _
        | some v =>
          dsimp only
          by_cases hrange : v < rules.minValue ∨ rules.maxValue < v
          · rw [if_pos hrange, if_pos hrange]
            exact ih (idx + 1) _
          · rw [if_neg hrange, if_neg hrange]
            by_cases hprev : tsLeqPrev st.prevTs ts = true
            · rw [if_pos hprev, if_pos hprev]
              exact ih (idx + 1) _
            · rw [if_neg hprev, if_neg hprev]
              by_cases hfut : now < ts
              · rw [if_pos hfut, if_pos hfut]
                exact ih (idx + 1) _
              · rw [if_neg hfut, if_neg hfut]
                refine ⟨?_, ?_⟩
                · rw [(ih (idx + 1) _).1]
                  dsimp only
                  cases hacc : acceptedFrom rules now rest (some ts) with
                  | nil => simp
                  | cons x xs =>
                    cases hl : (x :: xs).getLast? with
                    | none => simp at hl
                    | some lp => rw [List.getLast?_cons_cons, hl]
                · rw [(ih (idx + 1) _).2]
                  dsimp only
                  simp only [List.countP_cons]
                  by_cases hrec : now - 365 * DAY_MS ≤ ts
                  · simp [hrec]
                    try omega
                  · simp [hrec]
                    try omega

/-- `verifySeries` on an array equals its accepted-points decomposition. -/
theorem verifySeries_eq_viaAccepted (key : String) (rules : VRules)
    (pts : List JPoint) (summaryEntry : Option VSummaryEntry) (now : Int) :
    verifySeries key rules (some (JVal.arr pts)) summaryEntry now =
      verifySeriesViaAccepted key rules pts summaryEntry now := by
  have h := verifyLoop_accepted key rules now pts 0 ⟨none, none, 0, []⟩
  unfold verifySeries verifySeriesViaAccepted
  simp only
  have hlast : (verifyLoop key rules now 0 ⟨none, none, 0, []⟩ pts).lastPoint =
      (acceptedPoints rules now pts).getLast? := by
    rw [h.1]
    unfold acceptedPoints
    cases (acceptedFrom rules now pts none).getLast? <;> rfl
  have hcnt : (verifyLoop key rules now 0 ⟨none, none, 0, []⟩ pts).pointsLastYear =
      (acceptedPoints rules now pts).countP
        (fun lp => decide (now - 365 * DAY_MS ≤ lp.2.2)) := by
    rw [h.2]
    unfold acceptedPoints
    dsimp only
    omega
  rw [hlast, hcnt]


/-! ## Facts about the sea-ice merge -/

theorem foldl_mapSet_pairs :
    ∀ (l : List Point) (m : List (String × ℚ)),
      (m.map Prod.fst ++ l.map Point.date).Nodup →
      l.foldl (fun m p => mapSet m p.date p.value) m
        = m ++ l.map (fun p => (p.date, p.value)) := by
  intro l
  induction l with
  | nil => intro m _; simp
  | cons p t ih =>
    intro m hnd
    simp only [List.foldl_cons]
    have hpm : p.date ∉ m.map Prod.fst := by
      rw [List.map_cons, List.nodup_append] at hnd
      intro hmem
      exact hnd.2.2 hmem (by simp)
    rw [mapSet_not_mem hpm p.value]
    have hnd' : ((m ++ [(p.date, p.value)]).map Prod.fst ++ t.map Point.date).Nodup := by
      simp only [List.map_append, List.map_cons, List.map_nil] at hnd ⊢
      have hperm : (m.map Prod.fst ++ [p.date] ++ t.map Point.date).Perm
          (m.map Prod.fst ++ p.date :: t.map Point.date) := by
        rw [List.append_assoc]
        exact List.Perm.refl _
      exact hperm.nodup_iff.mpr hnd
    rw [ih (m ++ [(p.date, p.value)]) hnd']
    simp

/-- `new Map(points.map(p => [p.date, p.value]))` on a series with unique
dates is just the entry list. -/
theorem pointMapOf_eq (l : List Point) (h : (l.map Point.date).Nodup) :
    pointMapOf l = l.map (fun p => (p.date, p.value)) := by
  unfold pointMapOf
  have := foldl_mapSet_pairs l [] (by simpa using h)
  simpa using this

/-- `Map.prototype.get` on unique keys finds exactly the entries. -/
theorem mapGet_eq_some_iff {entries : List (String × ℚ)}
    (h : (entries.map Prod.fst).Nodup) {d : String} {v : ℚ} :
    mapGet entries d = some v ↔ (d, v) ∈ entries := by
  induction entries with
  | nil => simp [mapGet, List.find?]
  | cons e t ih =>
    rw [List.map_cons, List.nodup_cons] at h
    by_cases hd : e.1 = d
    · subst hd
      constructor
      · intro hm
        unfold mapGet at hm
        rw [List.find?_cons_of_pos _ (by simp)] at hm
        simp only [Option.map_some] at hm
        rw [Option.some_inj] at hm
        have he : (e.1, v) = e := by rw [← hm]
        rw [he]
        exact List.mem_cons_self e t
      · intro hm
        rcases List.mem_cons.mp hm with hh | hh
        · unfold mapGet
          rw [List.find?_cons_of_pos _ (by simp)]
          simp only [Option.map_some, Option.some_inj]
          exact (congrArg Prod.snd hh).symm
        · exact absurd (List.mem_map.mpr ⟨_, hh, rfl⟩) h.1
    · have hstep : mapGet (e :: t) d = mapGet t d := by
        unfold mapGet
        rw [List.find?_cons_of_neg _ (by simp [hd])]
      rw [hstep, ih h.2]
      constructor
      · exact fun hm => List.mem_cons_of_mem e hm
      · intro hm
        rcases List.mem_cons.mp hm with hh | hh
        · exact absurd (congrArg Prod.fst hh.symm) hd
        · exact hh

theorem dedupKeepFirst_mem {l : List String} {x : String} :
    x ∈ dedupKeepFirst l ↔ x ∈ l := by
  induction l with
  | nil => simp [dedupKeepFirst]
  | cons y t ih =>
    simp only [dedupKeepFirst, List.mem_cons]
    constructor
    · rintro (hx | hx)
      · exact Or.inl hx
      · exact Or.inr (ih.mp (List.mem_of_mem_filter hx))
    · rintro (hx | hx)
      · exact Or.inl hx
      · by_cases hxy : x = y
        · exact Or.inl hxy
        · right
          rw [List.mem_filter]
          exact ⟨ih.mpr hx, by simp [hxy]⟩

theorem dedupKeepFirst_nodup (l : List String) : (dedupKeepFirst l).Nodup := by
  induction l with
  | nil => simp [dedupKeepFirst]
  | cons y t ih =>
    simp only [dedupKeepFirst]
    rw [List.nodup_cons]
    refine ⟨?_, ih.filter _⟩
    intro hy
    have := (List.mem_filter.mp hy).2
    simp at this

theorem nodup_filterMap_dates {dates : List String} (hnd : dates.Nodup)
    (f : String → Option Point) (hf : ∀ x p, f x = some p → p.date = x) :
    ((dates.filterMap f).map Point.date).Nodup := by
  induction dates with
  | nil => simp
  | cons d t ih =>
    rw [List.nodup_cons] at hnd
    rw [List.filterMap_cons]
    cases hfd : f d with
    | none => exact ih hnd.2
    | some p =>
      rw [List.map_cons, List.nodup_cons]
      refine ⟨?_, ih hnd.2⟩
      intro hmem
      obtain ⟨q, hq, hqd⟩ := List.mem_map.mp hmem
      obtain ⟨x, hx, hfx⟩ := List.mem_filterMap.mp hq
      have hxq : q.date = x := hf x q hfx
      have hpd : p.date = d := hf d p hfd
      rw [hxq] at hqd
      rw [hpd] at hqd
      exact hnd.1 (hqd ▸ hx)

/-- Membership in a normalized series of a clean point list is membership
in the list. -/
theorem normalizePoints_mem_of_clean (l : List Point)
    (hiso : ∀ p ∈ l, isIsoShape p.date = true)
    (hnd : (l.map Point.date).Nodup) (p : Point) :
    p ∈ normalizePoints (l.map Point.toRaw) ↔ p ∈ l := by
  unfold normalizePoints
  have hmm : l.map Point.toRaw =
      (l.map (fun q => (q.date, q.value))).map (fun e => (⟨e.1, some e.2⟩ : RawPoint)) := by
    rw [List.map_map]
    rfl
  rw [hmm]
  have hkeys : (l.map (fun q => (q.date, q.value))).map Prod.fst = l.map Point.date := by
    rw [List.map_map]
    rfl
  have hiso' : ∀ k ∈ (l.map (fun q => (q.date, q.value))).map Prod.fst,
      isIsoShape k = true := by
    rw [hkeys]
    intro k hk
    obtain ⟨q, hq, hqk⟩ := List.mem_map.mp hk
    exact hqk ▸ hiso q hq
  have hnd' : ((l.map (fun q => (q.date, q.value))).map Prod.fst).Nodup := by
    rw [hkeys]
    exact hnd
  rw [buildPointMap_of_normalized _ hiso' hnd']
  have hperm := jsStableSort_perm dateLe (l.map (fun q => (q.date, q.value)))
  constructor
  · intro hp
    obtain ⟨e, he, hep⟩ := List.mem_map.mp hp
    have hel : e ∈ l.map (fun q => (q.date, q.value)) := hperm.mem_iff.mp he
    obtain ⟨q, hq, hqe⟩ := List.mem_map.mp hel
    have : q = p := by
      rw [← hep, ← hqe]
    exact this ▸ hq
  · intro hp
    apply List.mem_map.mpr
    refine ⟨(p.date, p.value), hperm.mem_iff.mpr (List.mem_map.mpr ⟨p, hp, rfl⟩), rfl⟩

/-- A series is well-formed when its dates are shape-valid and unique
(the sanitizer's outputs satisfy this). -/
def WellFormedSeries (l : List Point) : Prop :=
  (∀ p ∈ l, isIsoShape p.date = true) ∧ (l.map Point.date).Nodup

/-- The sea-ice merge keeps exactly the dates present in both inputs, with
the summed value. -/
theorem mergeSeaIce_mem (north south : List Point)
    (hn : WellFormedSeries north) (hs : WellFormedSeries south)
    (d : String) (v : ℚ) :
    (⟨d, v⟩ : Point) ∈ mergeSeaIceSeries north south ↔
      ∃ nv sv, (⟨d, nv⟩ : Point) ∈ north ∧ (⟨d, sv⟩ : Point) ∈ south ∧
        v = nv + sv := by
  unfold mergeSeaIceSeries
  rw [pointMapOf_eq north hn.2, pointMapOf_eq south hs.2]
  have hnget : ∀ {x nv}, mapGet (north.map (fun p => (p.date, p.value))) x = some nv ↔
      (⟨x, nv⟩ : Point) ∈ north := by
    intro x nv
    rw [mapGet_eq_some_iff (by rw [List.map_map]; exact hn.2)]
    constructor
    · intro hm
      obtain ⟨q, hq, hqe⟩ := List.mem_map.mp hm
      have : q = ⟨x, nv⟩ := by
        obtain ⟨qd, qv⟩ := q
        rw [Prod.mk.injEq] at hqe
        simp only at hqe
        rw [Point.mk.injEq]
        exact ⟨hqe.1, hqe.2⟩
      exact this ▸ hq
    · intro hm
      exact List.mem_map.mpr ⟨⟨x, nv⟩, hm, rfl⟩
  have hsget : ∀ {x sv}, mapGet (south.map (fun p => (p.date, p.value))) x = some sv ↔
      (⟨x, sv⟩ : Point) ∈ south := by
    intro x sv
    rw [mapGet_eq_some_iff (by rw [List.map_map]; exact hs.2)]
    constructor
    · intro hm
      obtain ⟨q, hq, hqe⟩ := List.mem_map.mp hm
      have : q = ⟨x, sv⟩ := by
        obtain ⟨qd, qv⟩ := q
        rw [Prod.mk.injEq] at hqe
        simp only at hqe
        rw [Point.mk.injEq]
        exact ⟨hqe.1, hqe.2⟩
      exact this ▸ hq
    · intro hm
      exact List.mem_map.mpr ⟨⟨x, sv⟩, hm, rfl⟩
  set nm := north.map (fun p => (p.date, p.value)) with hnm
  set sm := south.map (fun p => (p.date, p.value)) with hsm
  set dates := dedupKeepFirst (nm.map Prod.fst ++ sm.map Prod.fst) with hdates
  set f : String → Option Point := fun date =>
    match mapGet nm date, mapGet sm date with
    | some nv, some sv => some ⟨date, nv + sv⟩
    | _, _ => none with hf
  have hfdate : ∀ x p, f x = some p → p.date = x := by
    intro x p hfx
    rw [hf] at hfx
    simp only at hfx
    cases hgn : mapGet nm x with
    | none => rw [hgn] at hfx; exact absurd hfx (by simp)
    | some nv =>
      cases hgs : mapGet sm x with
      | none => rw [hgn, hgs] at hfx; exact absurd hfx (by simp)
      | some sv =>
        rw [hgn, hgs, Option.some_inj] at hfx
        rw [← hfx]
  have hmerged_iso : ∀ p ∈ dates.filterMap f, isIsoShape p.date = true := by
    intro p hp
    obtain ⟨x, hx, hfx⟩ := List.mem_filterMap.mp hp
    rw [hfdate x p hfx]
    rw [hf] at hfx
    simp only at hfx
    cases hgn : mapGet nm x with
    | none => rw [hgn] at hfx; exact absurd hfx (by simp)
    | some nv =>
      have := hnget.mp hgn
      exact hn.1 _ this
  have hmerged_nd : ((dates.filterMap f).map Point.date).Nodup :=
    nodup_filterMap_dates (hdates ▸ dedupKeepFirst_nodup _) f hfdate
  rw [normalizePoints_mem_of_clean _ hmerged_iso hmerged_nd]
  rw [List.mem_filterMap]
  constructor
  · rintro ⟨x, hx, hfx⟩
    have hxd : d = x := hfdate x _ hfx
    subst hxd
    rw [hf] at hfx
    simp only at hfx
    cases hgn : mapGet nm d with
    | none => rw [hgn] at hfx; exact absurd hfx (by simp)
    | some nv =>
      cases hgs : mapGet sm d with
      | none => rw [hgn, hgs] at hfx; exact absurd hfx (by simp)
      | some sv =>
        rw [hgn, hgs, Option.some_inj, Point.mk.injEq] at hfx
        exact ⟨nv, sv, hnget.mp hgn, hsget.mp hgs, hfx.2.symm⟩
  · rintro ⟨nv, sv, hnv, hsv, hv⟩
    refine ⟨d, ?_, ?_⟩
    · rw [hdates, dedupKeepFirst_mem, List.mem_append]
      left
      rw [hnm, List.map_map]
      exact List.mem_map.mpr ⟨⟨d, nv⟩, hnv, rfl⟩
    · rw [hf]
      simp only
      rw [hnget.mpr hnv, hsget.mpr hsv, hv]

/-! ## The sanitizer staleness gate -/

/-- If the latest point surviving the range/future filter is older than the
staleness limit, the sanitizer discards the whole series. -/
theorem sanitizeSeries_stale_empty (pts : List RawPoint) (lim : Limits)
    (now : Int) (lp : Point) (t : Int)
    (hl : (normalizePoints (sanitizeFilter lim now pts)).getLast? = some lp)
    (hp : parseIsoDateToUtc lp.date = some t)
    (ht : t < now - lim.maxAgeDays * DAY_MS) :
    sanitizeSeries pts lim now = [] := by
  have hdef : sanitizeSeries pts lim now =
      (match (normalizePoints (sanitizeFilter lim now pts)).getLast? with
       | none => []
       | some latest =>
         match parseIsoDateToUtc latest.date with
         | none => []
         | some latestTime =>
           if latestTime < now - lim.maxAgeDays * DAY_MS then []
           else normalizePoints (sanitizeFilter lim now pts)) := rfl
  rw [hdef, hl]
  dsimp only
  rw [hp]
  dsimp only
  rw [if_pos ht]


/-! ## The absent cross-series sea-ice identity check -/

/-- The (date, value) pairs of a series as stored in the artifact. -/
def seriesPointPairs (p : VPayload) (k : String) : List (String × ℚ) :=
  match getSeriesVal p k with
  | some (.arr pts) =>
    pts.filterMap (fun jp =>
      match jp with
      | .pt (some d) (some v) => some (d, v)
      | _ => none)
  | _ => []

/-- Stated from the specification text, for comparison with the code: the
dates present in the global, arctic and antarctic sea-ice series on which
`|global - (arctic + antarctic)|` exceeds the tolerance.  The verifier
script computes nothing of this kind. -/
def specSeaIceMismatchDates (p : VPayload) (tol : ℚ) : List String :=
  let g := seriesPointPairs p "global_sea_ice_extent"
  let a := seriesPointPairs p "arctic_sea_ice_extent"
  let b := seriesPointPairs p "antarctic_sea_ice_extent"
  (g.map Prod.fst).filter (fun d =>
    match mapGet a d, mapGet b d, mapGet g d with
    | some av, some bv, some gv => decide (tol < |gv - (av + bv)|)
    | _, _, _ => false)

/-- The verifier's outcome depends only on `generatedAtIso` and the series
and summary entries of the four keys in `SERIES_RULES`; in particular it is
insensitive to the arctic/antarctic sea-ice series. -/
theorem verifierRun_depends_only_on_ruled_series (p q : VPayload) (now : Int)
    (hgen : p.generatedAtIso = q.generatedAtIso)
    (hps : p.series.isSome = true) (hqs : q.series.isSome = true)
    (hk : ∀ k ∈ SERIES_RULES.map Prod.fst,
      getSeriesVal p k = getSeriesVal q k ∧ getSummaryEntry p k = getSummaryEntry q k) :
    verifierRun p now = verifierRun q now := by
  obtain ⟨sp, hsp⟩ := Option.isSome_iff_exists.mp hps
  obtain ⟨sq, hsq⟩ := Option.isSome_iff_exists.mp hqs
  have h1 := hk "global_surface_temperature" (by simp [SERIES_RULES])
  have h2 := hk "global_sea_surface_temperature" (by simp [SERIES_RULES])
  have h3 := hk "global_sea_ice_extent" (by simp [SERIES_RULES])
  have h4 := hk "atmospheric_co2" (by simp [SERIES_RULES])
  unfold verifierRun
  rw [hsp, hsq, hgen]
  simp only [SERIES_RULES, List.foldl_cons, List.foldl_nil]
  rw [h1.1, h1.2, h2.1, h2.2, h3.1, h3.2, h4.1, h4.2]


/-! ## Facts about the fetch retry loop -/

/-- Whether an attempt outcome is a full success. -/
def AttemptOutcome.isValue : AttemptOutcome α → Bool
  | .value _ => true
  | _ => false

/-- The retry loop returns the value of the first fully successful attempt
within the limit, regardless of whether the earlier attempts failed in
transport, status, or body parsing. -/
theorem fetchWithRetry_first_success (oracle : Nat → AttemptOutcome α)
    (n : Nat) (v : α) (h1 : 1 ≤ n) (h3 : n ≤ FETCH_RETRY_ATTEMPTS)
    (hbefore : ∀ m, 1 ≤ m → m < n → (oracle m).isValue = false)
    (hn : oracle n = .value v) :
    fetchWithRetry oracle = .ok v := by
  unfold fetchWithRetry FETCH_RETRY_ATTEMPTS
  unfold FETCH_RETRY_ATTEMPTS at h3
  interval_cases n
  · simp [fetchLoop, hn]
  · have hv1 : (oracle 1).isValue = false := hbefore 1 (by omega) (by omega)
    cases ho1 : oracle 1 <;> rw [ho1] at hv1 <;>
      simp [AttemptOutcome.isValue] at hv1 <;>
      simp [fetchLoop, ho1, hn]
  · have hv1 : (oracle 1).isValue = false := hbefore 1 (by omega) (by omega)
    have hv2 : (oracle 2).isValue = false := hbefore 2 (by omega) (by omega)
    cases ho1 : oracle 1 <;> rw [ho1] at hv1 <;>
      simp [AttemptOutcome.isValue] at hv1 <;>
      cases ho2 : oracle 2 <;> rw [ho2] at hv2 <;>
      simp [AttemptOutcome.isValue] at hv2 <;>
      simp [fetchLoop, ho1, ho2, hn]

/-! ## Facts about the map fallback loop -/

/-- One step of the candidate loop. -/
theorem fallbackLoop_cons (oracle : String → FetchBinResult)
    (buildUrl : Int → Nat → String) (dateIso : String) (back : Nat)
    (rest : List Nat) (lastErr : Option String) :
    fallbackLoop oracle buildUrl dateIso (back :: rest) lastErr =
      match addUtcDays dateIso (-(back : Int)) with
      | none => fallbackLoop oracle buildUrl dateIso rest lastErr
      | some candDate =>
        match yearDayFromIso candDate with
        | none => fallbackLoop oracle buildUrl dateIso rest lastErr
        | some (y, doy) =>
          match oracle (buildUrl y doy) with
          | .err e => fallbackLoop oracle buildUrl dateIso rest (some e)
          | .ok bytes =>
            if 0 < bytes.length then .ok ⟨bytes, buildUrl y doy, candDate⟩
            else fallbackLoop oracle buildUrl dateIso rest lastErr := rfl

/-- Skipping failing candidates: the loop result over failing offsets then
a remainder equals the loop over the remainder (for some carried last
error). -/
theorem fallbackLoop_skip (oracle : String → FetchBinResult)
    (buildUrl : Int → Nat → String) (dateIso : String) :
    ∀ (l1 l2 : List Nat) (e : Option String),
      (∀ j ∈ l1, mapCandidateFailsB oracle buildUrl dateIso j = true) →
      ∃ e', fallbackLoop oracle buildUrl dateIso (l1 ++ l2) e =
        fallbackLoop oracle buildUrl dateIso l2 e' := by
  intro l1
  induction l1 with
  | nil => intro l2 e _; exact ⟨e, rfl⟩
  | cons j t ih =>
    intro l2 e hfail
    have hj := hfail j (by simp)
    unfold mapCandidateFailsB at hj
    rw [List.cons_append, fallbackLoop_cons]
    cases hc : addUtcDays dateIso (-(j : Int)) with
    | none => exact ih l2 e (fun x hx => hfail x (by simp [hx]))
    | some cand =>
      rw [hc] at hj
      dsimp only at hj ⊢
      cases hy : yearDayFromIso cand with
      | none => exact ih l2 e (fun x hx => hfail x (by simp [hx]))
      | some yd =>
        rw [hy] at hj
        obtain ⟨y, doy⟩ := yd
        dsimp only at hj ⊢
        cases hb : oracle (buildUrl y doy) with
        | err msg =>
          exact ih l2 (some msg) (fun x hx => hfail x (by simp [hx]))
        | ok bytes =>
          rw [hb] at hj
          dsimp only at hj ⊢
          have hlen : bytes.length = 0 := by
            rw [decide_eq_true_eq] at hj
            exact hj
          rw [if_neg (by omega)]
          exact ih l2 e (fun x hx => hfail x (by simp [hx]))

/-- When every earlier candidate fails and the `k`-th candidate date
downloads a non-empty binary, the snapshot records that candidate's date
and URL. -/
theorem downloadMap_first_success (oracle : String → FetchBinResult)
    (buildUrl : Int → Nat → String) (dateIso : String) (k : Nat)
    (cd : String) (y : Int) (doy : Nat) (bytes : List Nat)
    (hne : dateIso ≠ "") (hk : k ≤ 20)
    (hfail : ∀ j, j < k → mapCandidateFailsB oracle buildUrl dateIso j = true)
    (hc : addUtcDays dateIso (-(k : Int)) = some cd)
    (hy : yearDayFromIso cd = some (y, doy))
    (hb : oracle (buildUrl y doy) = .ok bytes)
    (hnz : bytes ≠ []) :
    downloadMapWithFallback oracle buildUrl dateIso =
      .ok ⟨bytes, buildUrl y doy, cd⟩ := by
  unfold downloadMapWithFallback
  rw [if_neg hne]
  have hsplit : List.range 21 = List.range k ++ (k :: List.range' (k + 1) (20 - k)) := by
    rw [List.range_eq_range', List.range_eq_range']
    have h1 : List.range' 0 k 1 ++ List.range' (0 + 1 * k) ((20 - k) + 1) 1 =
        List.range' 0 (((20 - k) + 1) + k) 1 :=
      List.range'_append 0 k ((20 - k) + 1) 1
    have h2 : (((20 - k) + 1) + k) = 21 := by omega
    rw [h2] at h1
    rw [← h1]
    congr 1
    have h3 : 0 + 1 * k = k := by omega
    rw [h3, List.range'_succ]
  rw [hsplit]
  obtain ⟨e', he'⟩ := fallbackLoop_skip oracle buildUrl dateIso (List.range k)
    (k :: List.range' (k + 1) (20 - k)) none
    (fun j hj => hfail j (List.mem_range.mp hj))
  rw [he', fallbackLoop_cons, hc]
  dsimp only
  rw [hy]
  dsimp only
  rw [hb]
  dsimp only
  rw [if_pos]
  cases bytes with
  | nil => exact absurd rfl hnz
  | cons b bs => simp


/-! ## Facts about the update tail -/

/-- The map loop never writes the dataset artifact. -/
theorem datasetWrite_not_mapJobWrites (jobs : List (String × MapJobOutcome)) :
    WriteEvent.datasetWrite ∉ mapJobWrites jobs := by
  intro hmem
  obtain ⟨j, _, hj⟩ := List.mem_filterMap.mp hmem
  cases h : j.2 <;> rw [h] at hj <;> simp at hj

/-- With an empty required series, the run fails naming the empty keys and
the dataset artifact is not written. -/
theorem updateOnceTail_refuses_incomplete (b : SeriesBundle)
    (mo : List (String × MapJobOutcome))
    (h : emptySeriesKeys (outputSeries b) ≠ []) :
    (updateOnceTail b mo).2 = .error (emptySeriesKeys (outputSeries b)) ∧
      WriteEvent.datasetWrite ∉ (updateOnceTail b mo).1 := by
  unfold updateOnceTail
  rw [if_neg h]
  exact ⟨rfl, datasetWrite_not_mapJobWrites mo⟩


/-- Decidable equality for embedded run results. -/
instance exceptDecEq {ε α : Type} [DecidableEq ε] [DecidableEq α] :
    DecidableEq (Except ε α) := fun a b =>
  match a, b with
  | .error e, .error f =>
    if h : e = f then .isTrue (by rw [h])
    else .isFalse (by intro hc; cases hc; exact h rfl)
  | .error _, .ok _ => .isFalse (fun hc => Except.noConfusion hc)
  | .ok _, .error _ => .isFalse (fun hc => Except.noConfusion hc)
  | .ok v, .ok w =>
    if h : v = w then .isTrue (by rw [h])
    else .isFalse (by intro hc; cases hc; exact h rfl)


/-! ## Claims

One theorem per claim of the specification review, with concrete
counterexamples and witnesses where required. -/

/-- Concrete artifact whose sea-ice series satisfy the identity
`global = arctic + antarctic`. -/
def c1SeriesOk : List (String × JVal) :=
  [("global_surface_temperature", .arr []),
   ("global_sea_surface_temperature", .arr []),
   ("global_sea_ice_extent", .arr [.pt (some "2020-01-01") (some 15)]),
   ("atmospheric_co2", .arr []),
   ("arctic_sea_ice_extent", .arr [.pt (some "2020-01-01") (some 10)]),
   ("antarctic_sea_ice_extent", .arr [.pt (some "2020-01-01") (some 5)])]

/-- Same artifact with the antarctic value changed so that
`|global - (arctic + antarctic)| = 45`, far beyond the 0.02 tolerance. -/
def c1SeriesBad : List (String × JVal) :=
  [("global_surface_temperature", .arr []),
   ("global_sea_surface_temperature", .arr []),
   ("global_sea_ice_extent", .arr [.pt (some "2020-01-01") (some 15)]),
   ("atmospheric_co2", .arr []),
   ("arctic_sea_ice_extent", .arr [.pt (some "2020-01-01") (some 10)]),
   ("antarctic_sea_ice_extent", .arr [.pt (some "2020-01-01") (some 50)])]

/-- The identity-satisfying payload. -/
def c1PayloadOk : VPayload := ⟨some "2020-01-02", some c1SeriesOk, some []⟩

/-- The identity-violating payload. -/
def c1PayloadBad : VPayload := ⟨some "2020-01-02", some c1SeriesBad, some []⟩

/-- C1, counterexample.  The claim says the Verifier checks the sea-ice
identity (tolerance 0.02) and reports mismatches as errors.  Here a
payload with a gross identity violation on a shared date produces exactly
the same verifier output as the identity-satisfying payload it differs
from only in the antarctic series, so no mismatch is ever reported. -/
theorem claimC1_counterexample :
    specSeaIceMismatchDates c1PayloadBad (2 / 100) = ["2020-01-01"] ∧
    specSeaIceMismatchDates c1PayloadOk (2 / 100) = [] ∧
    c1PayloadBad.generatedAtIso = c1PayloadOk.generatedAtIso ∧
    getSeriesVal c1PayloadBad "global_sea_ice_extent"
      = getSeriesVal c1PayloadOk "global_sea_ice_extent" ∧
    getSeriesVal c1PayloadBad "arctic_sea_ice_extent"
      = getSeriesVal c1PayloadOk "arctic_sea_ice_extent" ∧
    verifierRun c1PayloadBad 1577923200000 = verifierRun c1PayloadOk 1577923200000 := by
  refine ⟨by decide, by decide, rfl, rfl, rfl, by decide⟩

/-- C1, amended.  The Verifier performs no cross-series sea-ice identity
check: its outcome depends only on `generatedAtIso` and the series/summary
entries of the four keys in `SERIES_RULES`, so it is insensitive to the
arctic and antarctic sea-ice series and never reports identity
mismatches. -/
theorem claimC1 (p q : VPayload) (now : Int)
    (hgen : p.generatedAtIso = q.generatedAtIso)
    (hps : p.series.isSome = true) (hqs : q.series.isSome = true)
    (hk : ∀ k ∈ SERIES_RULES.map Prod.fst,
      getSeriesVal p k = getSeriesVal q k ∧
      getSummaryEntry p k = getSummaryEntry q k) :
    verifierRun p now = verifierRun q now :=
  verifierRun_depends_only_on_ruled_series p q now hgen hps hqs hk

/-- C1, witness: the amended theorem applied to the two concrete payloads
of the counterexample. -/
theorem claimC1_witness :
    verifierRun c1PayloadBad 1577923200000 = verifierRun c1PayloadOk 1577923200000 :=
  claimC1 c1PayloadBad c1PayloadOk 1577923200000 (by decide) (by decide)
    (by decide) (by decide)

/-- The CO2 CSV line of the claim scenario. -/
def c2Line : String := "2024,3,15,422.10,422.05,421.80,10"

/-- C2, counterexample.  The claim says the line yields value 422.10 (the
fourth column); the parser's candidate columns are the fifth through
seventh, so the point's value is 422.05. -/
theorem claimC2_counterexample :
    parseNoaaCo2DailyCsv c2Line ≠ [⟨"2024-03-15", (422.10 : ℚ)⟩] ∧
    parseNoaaCo2DailyCsv c2Line = [⟨"2024-03-15", (422.05 : ℚ)⟩] := by
  refine ⟨by decide, by decide⟩

/-- C2, amended.  Feeding the NOAA CO2 daily parser the line
`2024,3,15,422.10,422.05,421.80,10` yields exactly one point
`{date: "2024-03-15", value: 422.05}`: the candidate columns are the
fifth to seventh (indices 4-6), and the first whose value lies in the open
interval (0, 1000) wins. -/
theorem claimC2 :
    parseNoaaCo2DailyCsv c2Line = [⟨"2024-03-15", (422.05 : ℚ)⟩] := by
  decide

/-- An attempt sequence whose first response is 2xx with a body that fails
to parse and whose second attempt succeeds. -/
def c3Oracle : Nat → AttemptOutcome Nat := fun n =>
  if n = 1 then .parseFailure else if n = 2 then .value 42 else .transportError

/-- C3, counterexample.  The claim says a 2xx response with a failing body
parse is not retried; here the first attempt is exactly that, yet the
client consumes a second attempt and returns its value. -/
theorem claimC3_counterexample :
    c3Oracle 1 = .parseFailure ∧
    fetchWithRetry c3Oracle = .ok 42 ∧
    fetchAttemptsUsed c3Oracle = 2 := by
  refine ⟨rfl, by decide, by decide⟩

/-- C3, amended.  The fetch client retries on every attempt failure —
transport errors, non-2xx statuses and body-parse failures alike (the body
is parsed inside the same `try` block): the result is the value of the
first fully successful attempt within the three-attempt budget. -/
theorem claimC3 (oracle : Nat → AttemptOutcome α) (n : Nat) (v : α)
    (h1 : 1 ≤ n) (h3 : n ≤ FETCH_RETRY_ATTEMPTS)
    (hbefore : ∀ m, 1 ≤ m → m < n → (oracle m).isValue = false)
    (hn : oracle n = .value v) :
    fetchWithRetry oracle = .ok v :=
  fetchWithRetry_first_success oracle n v h1 h3 hbefore hn

/-- An attempt sequence failing with a parse failure and then a bad
status before succeeding on the final attempt. -/
def c3WitnessOracle : Nat → AttemptOutcome Nat := fun n =>
  if n = 1 then .parseFailure else if n = 2 then .badStatus 500 else .value 7

/-- C3, witness: the amended theorem at a concrete attempt sequence. -/
theorem claimC3_witness :
    (1 : Nat) ≤ 3 ∧ fetchWithRetry c3WitnessOracle = .ok 7 :=
  ⟨by decide, claimC3 c3WitnessOracle 3 7 (by decide) (by decide)
    (by intro m h1 h2; interval_cases m <;> rfl) rfl⟩

/-- C4.  If one or more of the eighteen required series is empty after
sanitization, the run fails naming exactly the empty series keys, and the
dataset artifact is never written (the write trace contains no dataset
write). -/
theorem claimC4 (b : SeriesBundle) (mo : List (String × MapJobOutcome))
    (h : emptySeriesKeys (outputSeries b) ≠ []) :
    (updateOnceTail b mo).2 = .error (emptySeriesKeys (outputSeries b)) ∧
      WriteEvent.datasetWrite ∉ (updateOnceTail b mo).1 :=
  updateOnceTail_refuses_incomplete b mo h

/-- A bundle whose CO2 series is empty while every other series has a
point. -/
def c4Bundle : SeriesBundle :=
  let one : List Point := [⟨"2020-01-01", 1⟩]
  ⟨one, one, one, one, one, one, one, one, one, one, one, one, one, one,
   one, [], one, one⟩

/-- A map loop run in which one job succeeded. -/
def c4MapJobs : List (String × MapJobOutcome) :=
  [("global_2m_temperature", .fetched [137, 80] "u" "2020-01-01"),
   ("global_sst", .failedWithExistingFile)]

/-- C4, witness: the theorem at a bundle whose CO2 series is empty. -/
theorem claimC4_witness :
    emptySeriesKeys (outputSeries c4Bundle) ≠ [] ∧
    ((updateOnceTail c4Bundle c4MapJobs).2
        = .error (emptySeriesKeys (outputSeries c4Bundle)) ∧
      WriteEvent.datasetWrite ∉ (updateOnceTail c4Bundle c4MapJobs).1) :=
  ⟨by decide, claimC4 c4Bundle c4MapJobs (by decide)⟩

/-- C5.  If the latest point remaining after the range and future-date
filter is older than `maxAgeDays` before `nowMidnight`, the sanitizer
returns the empty series, discarding earlier valid points as well. -/
theorem claimC5 (pts : List RawPoint) (lim : Limits) (now : Int)
    (lp : Point) (t : Int)
    (hl : (normalizePoints (sanitizeFilter lim now pts)).getLast? = some lp)
    (hp : parseIsoDateToUtc lp.date = some t)
    (ht : t < now - lim.maxAgeDays * DAY_MS) :
    sanitizeSeries pts lim now = [] :=
  sanitizeSeries_stale_empty pts lim now lp t hl hp ht

/-- A two-point series whose latest point is 31 days old under a 20-day
policy. -/
def c5Points : List RawPoint := [⟨"2020-01-01", some 5⟩, ⟨"2020-05-01", some 6⟩]

/-- The 20-day staleness policy of the concrete scenario. -/
def c5Limits : Limits := ⟨0, 30, 20⟩

/-- C5, witness: the theorem at the concrete stale series (now =
2020-06-01 UTC midnight). -/
theorem claimC5_witness :
    (normalizePoints (sanitizeFilter c5Limits 1590969600000 c5Points)).getLast?
        = some ⟨"2020-05-01", 6⟩ ∧
    parseIsoDateToUtc "2020-05-01" = some 1588291200000 ∧
    (1588291200000 : Int) < 1590969600000 - c5Limits.maxAgeDays * DAY_MS ∧
    sanitizeSeries c5Points c5Limits 1590969600000 = [] :=
  ⟨by decide, by decide, by decide,
    claimC5 c5Points c5Limits 1590969600000 ⟨"2020-05-01", 6⟩ 1588291200000
      (by decide) (by decide) (by decide)⟩

/-- The normalizer input of the C6 counterexample: two regex-valid but
calendar-invalid dates. -/
def c6Input : List RawPoint := [⟨"2024-02-31", some 1⟩, ⟨"2024-02-30", some 2⟩]

/-- C6, counterexample.  `2024-02-31` and `2024-02-30` match the date
regex but `Date.parse` yields NaN for both, so the sort comparator treats
them as equal and both points survive normalization; the output is not
strictly increasing by parsed UTC date. -/
theorem claimC6_counterexample :
    ¬ (((normalizePoints c6Input).map Point.date).Nodup ∧
       datesStrictlyIncreasing (normalizePoints c6Input) = true) := by
  decide

/-- C6, amended.  The normalizer's output always has pairwise-distinct
date strings; and when every regex-matching date of the input is an
actual calendar date, the output is also strictly increasing by parsed
UTC date. -/
theorem claimC6 (pts : List RawPoint)
    (h : ∀ p ∈ pts, isIsoShape (jsTrim p.date) = true →
      (parseIsoDateToUtc (jsTrim p.date)).isSome = true) :
    ((normalizePoints pts).map Point.date).Nodup ∧
      datesStrictlyIncreasing (normalizePoints pts) = true :=
  ⟨normalizePoints_dates_nodup pts, normalizePoints_strict pts h⟩

/-- A small unsorted input with duplicate and invalid entries but only
calendar-valid regex-matching dates. -/
def c6WitnessInput : List RawPoint :=
  [⟨"2020-01-02", some 2⟩, ⟨"not-a-date", some 9⟩, ⟨"2020-01-01", some 1⟩,
   ⟨"2020-01-02", some 7⟩, ⟨"2020-01-03", none⟩]

/-- C6, witness: the amended theorem at a concrete input. -/
theorem claimC6_witness :
    ((normalizePoints c6WitnessInput).map Point.date).Nodup ∧
      datesStrictlyIncreasing (normalizePoints c6WitnessInput) = true :=
  claimC6 c6WitnessInput (by decide)

/-- C7.  The Point Normalizer is idempotent: re-normalizing its own output
returns the same list, for every input point list. -/
theorem claimC7 (pts : List RawPoint) :
    normalizePoints ((normalizePoints pts).map Point.toRaw) = normalizePoints pts :=
  normalizePoints_idem pts

/-- C8.  The sea-ice merge keeps exactly the dates present in both input
series, with value the sum of the two sides' values on that date, and
drops dates present in only one side. -/
theorem claimC8 (north south : List Point)
    (hn : WellFormedSeries north) (hs : WellFormedSeries south)
    (d : String) (v : ℚ) :
    (⟨d, v⟩ : Point) ∈ mergeSeaIceSeries north south ↔
      ∃ nv sv, (⟨d, nv⟩ : Point) ∈ north ∧ (⟨d, sv⟩ : Point) ∈ south ∧
        v = nv + sv :=
  mergeSeaIce_mem north south hn hs d v

/-- The Arctic series of the claim's example. -/
def c8North : List Point := [⟨"2020-01-01", 10⟩]

/-- The Antarctic series of the claim's example. -/
def c8South : List Point := [⟨"2020-01-01", 5⟩, ⟨"2020-01-02", 4⟩]

/-- C8, witness: the merged series of the claim's example is exactly
`{2020-01-01: 15.0}`, and the membership characterization holds there. -/
theorem claimC8_witness :
    WellFormedSeries c8North ∧ WellFormedSeries c8South ∧
    mergeSeaIceSeries c8North c8South = [⟨"2020-01-01", 15⟩] ∧
    ((⟨"2020-01-01", (15 : ℚ)⟩ : Point) ∈ mergeSeaIceSeries c8North c8South ↔
      ∃ nv sv, (⟨"2020-01-01", nv⟩ : Point) ∈ c8North ∧
        (⟨"2020-01-01", sv⟩ : Point) ∈ c8South ∧ (15 : ℚ) = nv + sv) :=
  ⟨⟨by decide, by decide⟩, ⟨by decide, by decide⟩, by decide,
    claimC8 c8North c8South ⟨by decide, by decide⟩ ⟨by decide, by decide⟩
      "2020-01-01" 15⟩

/-- C9.  When the download for the requested date fails but a candidate
`k` days earlier (k ≤ 20) is the first to return a non-empty binary, the
returned snapshot records that candidate's date — not the originally
requested one. -/
theorem claimC9 (oracle : String → FetchBinResult)
    (buildUrl : Int → Nat → String) (dateIso : String) (k : Nat)
    (cd : String) (y : Int) (doy : Nat) (bytes : List Nat)
    (hne : dateIso ≠ "") (hk : k ≤ 20)
    (hfail : ∀ j, j < k → mapCandidateFailsB oracle buildUrl dateIso j = true)
    (hc : addUtcDays dateIso (-(k : Int)) = some cd)
    (hy : yearDayFromIso cd = some (y, doy))
    (hb : oracle (buildUrl y doy) = .ok bytes)
    (hnz : bytes ≠ []) (hneq : cd ≠ dateIso) :
    downloadMapWithFallback oracle buildUrl dateIso
        = .ok ⟨bytes, buildUrl y doy, cd⟩ ∧
      cd ≠ dateIso :=
  ⟨downloadMap_first_success oracle buildUrl dateIso k cd y doy bytes
    hne hk hfail hc hy hb hnz, hneq⟩

/-- An oracle where only the map image of 2024 day 060 (2024-02-29)
exists; the requested date 2024-03-01 (day 061) 404s. -/
def c9Oracle : String → FetchBinResult := fun url =>
  if url = buildT2MapUrl 2024 60 then .ok [137, 80, 78, 71] else .err "HTTP 404"

/-- C9, witness: requesting 2024-03-01 falls back one day and the snapshot
records 2024-02-29. -/
theorem claimC9_witness :
    downloadMapWithFallback c9Oracle buildT2MapUrl "2024-03-01"
        = .ok ⟨[137, 80, 78, 71], buildT2MapUrl 2024 60, "2024-02-29"⟩ ∧
      "2024-02-29" ≠ "2024-03-01" :=
  claimC9 c9Oracle buildT2MapUrl "2024-03-01" 1 "2024-02-29" 2024 60
    [137, 80, 78, 71] (by decide) (by decide)
    (by intro j hj
        interval_cases j
        decide)
    (by decide) (by decide) (by decide) (by decide) (by decide)

/-- C10.  In the verifier's per-series pass every point failing a
per-point check is recorded as an error and skipped, so the freshness
check, the recent-density count and the summary latest-point comparisons
are all computed from the last point that passed every check (the
accepted subsequence), not from the final element of the array. -/
theorem claimC10 (key : String) (rules : VRules) (pts : List JPoint)
    (summaryEntry : Option VSummaryEntry) (now : Int) :
    verifySeries key rules (some (JVal.arr pts)) summaryEntry now =
      verifySeriesViaAccepted key rules pts summaryEntry now :=
  verifySeries_eq_viaAccepted key rules pts summaryEntry now

end Climate
